import Mathlib

/-!
# Verification of the `vbtokenizer` byte-level BPE tokenizer

Shallow embedding of `src/vbtokenizer/tokenizer.py` (class `SimpleTokenizer`).

Modelling conventions:
* Python text (`str`) is a list of Unicode code points (`List Nat`); Python
  `bytes` is a list of naturals `< 256`.
* Python `dict` (insertion-ordered) is an association list `List (κ × ν)`;
  `dict[k] = v` is `dinsert` (replace in place, else append) and `d.get(k)`
  is `dget?`.
* Fallible operations (`UnicodeEncodeError`, `KeyError`, `ValueError`,
  `FileNotFoundError`, a `max` over an empty dict) are modelled with
  `Option`; `load`, which mutates the tokenizer before it can fail, returns
  the mutated state together with a success flag.
* A tokenizer directory on disk is a `TokDir` of two optional file texts;
  a missing directory is `none : Option TokDir`.
-/

/-- Python dict assignment `d[k] = v` on an insertion-ordered association
list: replace the value at `k` in place if `k` is present, else append. -/
def dinsert {κ ν : Type} [DecidableEq κ] : List (κ × ν) → κ → ν → List (κ × ν)
  | [], k, v => [(k, v)]
  | (k', v') :: rest, k, v =>
    if k' = k then (k, v) :: rest else (k', v') :: dinsert rest k v

/-- Python dict lookup `d.get(k)`. -/
def dget? {κ ν : Type} [DecidableEq κ] : List (κ × ν) → κ → Option ν
  | [], _ => none
  | (k', v') :: rest, k => if k' = k then some v' else dget? rest k

/-- Python `text.split(sep)` for a single-character separator: split on every
occurrence, keeping empty chunks. -/
def splitSep (sep : Nat) : List Nat → List (List Nat)
  | [] => [[]]
  | c :: rest =>
    if c = sep then [] :: splitSep sep rest
    else
      match splitSep sep rest with
      | l :: ls => (c :: l) :: ls
      | [] => [[c]]

/-- Fuel-driven decimal rendering of a natural (digits as code points). -/
def natDecAux : Nat → Nat → List Nat
  | 0, _ => []
  | fuel + 1, n => if n < 10 then [48 + n] else natDecAux fuel (n / 10) ++ [48 + n % 10]

/-- Python `f"{n}"` for a nonnegative integer `n`: its decimal numeral. -/
def natDec (n : Nat) : List Nat := natDecAux (n + 1) n

/-- Accumulates the value of a decimal digit string; `none` on a non-digit. -/
def digitsAcc : Nat → List Nat → Option Nat
  | acc, [] => some acc
  | acc, c :: rest =>
    if 48 ≤ c ∧ c ≤ 57 then digitsAcc (acc * 10 + (c - 48)) rest else none

/-- Python `int(s)` on the fragment this file format produces: a nonempty
string of decimal digits, value as a natural.  (Full Python `int` also
accepts signs and surrounding whitespace; the tokenizer's own files never
contain those, and token ids in this development are naturals.) -/
def pyint? : List Nat → Option Nat
  | [] => none
  | c :: rest => if 48 ≤ c ∧ c ≤ 57 then digitsAcc (c - 48) rest else none

/-- One merges-file row: `idx1, idx2 = row.split(" ")` followed by
`int(idx1)`, `int(idx2)`; `none` models the `ValueError` on a malformed
line (wrong number of space-separated fields, or a non-numeral field). -/
def parsePairLine (row : List Nat) : Option (Nat × Nat) :=
  match splitSep 32 row with
  | [x, y] =>
    match pyint? x, pyint? y with
    | some a, some b => some (a, b)
    | _, _ => none
  | _ => none

/-- A Unicode scalar value: what Python can UTF-8-encode (no lone
surrogates). -/
def validScalarB (c : Nat) : Bool :=
  decide (c < 1114112) && (decide (c < 55296) || decide (57344 ≤ c))

/-- UTF-8 byte sequence of one scalar value (1 to 4 bytes). -/
def encChar (c : Nat) : List Nat :=
  if c < 128 then [c]
  else if c < 2048 then [192 + c / 64, 128 + c % 64]
  else if c < 65536 then [224 + c / 4096, 128 + c / 64 % 64, 128 + c % 64]
  else [240 + c / 262144, 128 + c / 4096 % 64, 128 + c / 64 % 64, 128 + c % 64]

/-- Python `text.encode("utf-8")`: `none` models the `UnicodeEncodeError`
raised on a lone surrogate. -/
def utf8EncodeList : List Nat → Option (List Nat)
  | [] => some []
  | c :: cs =>
    if validScalarB c then
      match utf8EncodeList cs with
      | some bs => some (encChar c ++ bs)
      | none => none
    else none

/-- Python `bytes.decode("utf-8", errors="replace")`: total, replacing each
maximal ill-formed subsequence with U+FFFD (65533), as CPython does. -/
def utf8DecodeReplace : List Nat → List Nat
  | [] => []
  | b1 :: rest =>
    if b1 < 128 then b1 :: utf8DecodeReplace rest
    else if b1 < 194 then 65533 :: utf8DecodeReplace rest
    else if b1 < 224 then
      match rest with
      | [] => [65533]
      | b2 :: rest2 =>
        if 128 ≤ b2 ∧ b2 < 192 then
          ((b1 - 192) * 64 + (b2 - 128)) :: utf8DecodeReplace rest2
        else 65533 :: utf8DecodeReplace (b2 :: rest2)
    else if b1 < 240 then
      match rest with
      | [] => [65533]
      | b2 :: rest2 =>
        if (if b1 = 224 then 160 else 128) ≤ b2 ∧ b2 ≤ (if b1 = 237 then 159 else 191) then
          match rest2 with
          | [] => [65533]
          | b3 :: rest3 =>
            if 128 ≤ b3 ∧ b3 < 192 then
              ((b1 - 224) * 4096 + (b2 - 128) * 64 + (b3 - 128)) :: utf8DecodeReplace rest3
            else 65533 :: utf8DecodeReplace (b3 :: rest3)
        else 65533 :: utf8DecodeReplace (b2 :: rest2)
    else if b1 < 245 then
      match rest with
      | [] => [65533]
      | b2 :: rest2 =>
        if (if b1 = 240 then 144 else 128) ≤ b2 ∧ b2 ≤ (if b1 = 244 then 143 else 191) then
          match rest2 with
          | [] => [65533]
          | b3 :: rest3 =>
            if 128 ≤ b3 ∧ b3 < 192 then
              match rest3 with
              | [] => [65533]
              | b4 :: rest4 =>
                if 128 ≤ b4 ∧ b4 < 192 then
                  ((b1 - 240) * 262144 + (b2 - 128) * 4096 + (b3 - 128) * 64 + (b4 - 128))
                    :: utf8DecodeReplace rest4
                else 65533 :: utf8DecodeReplace (b4 :: rest4)
            else 65533 :: utf8DecodeReplace (b3 :: rest3)
        else 65533 :: utf8DecodeReplace (b2 :: rest2)
    else 65533 :: utf8DecodeReplace rest

/-- The `while` loop of `SimpleTokenizer._merge_bytepairs`, embedded with its
index `i`, accumulator `new_tokens`, and fuel `tokens.length` (the loop runs
at most `len(tokens)` iterations since `i` grows by at least 1). -/
def mergeLoopGo (tokens : List Nat) (pair : Nat × Nat) (index : Nat) :
    Nat → Nat → List Nat → List Nat
  | 0, _, acc => acc
  | fuel + 1, i, acc =>
    if i < tokens.length then
      if i < tokens.length - 1 ∧ tokens.getD i 0 = pair.1 ∧ tokens.getD (i + 1) 0 = pair.2 then
        mergeLoopGo tokens pair index fuel (i + 2) (acc ++ [index])
      else
        mergeLoopGo tokens pair index fuel (i + 1) (acc ++ [tokens.getD i 0])
    else acc

/-- `SimpleTokenizer._merge_bytepairs(tokens, pair, index)`. -/
def merge_bytepairs (tokens : List Nat) (pair : Nat × Nat) (index : Nat) : List Nat :=
  mergeLoopGo tokens pair index tokens.length 0 []

/-- The single-merge pass as the specification words it: scan left to right,
replace each adjacent occurrence of the pair by `index` and advance two
positions, else copy one token and advance one.  (Spec-side description of
§4.2 "apply single merge"; `merge_bytepairs` above is the source's loop.) -/
def mergeScan : List Nat → Nat × Nat → Nat → List Nat
  | [], _, _ => []
  | [x], _, _ => [x]
  | x :: y :: rest, p, index =>
    if x = p.1 ∧ y = p.2 then index :: mergeScan rest p index
    else x :: mergeScan (y :: rest) p index

/-- The counting loop of `SimpleTokenizer._count_combinations`:
`counts[pair] = counts.get(pair, 0) + 1` over `zip(tokens, tokens[1:])`. -/
def countPairsLoop : List (Nat × Nat) → List ((Nat × Nat) × Nat) → List ((Nat × Nat) × Nat)
  | [], counts => counts
  | p :: rest, counts => countPairsLoop rest (dinsert counts p ((dget? counts p).getD 0 + 1))

/-- Stable insertion used to model Python's stable `sorted(..., key=lambda x: -x[1])`:
keep walking while the existing count is strictly larger. -/
def insertByCount (x : (Nat × Nat) × Nat) : List ((Nat × Nat) × Nat) → List ((Nat × Nat) × Nat)
  | [] => [x]
  | y :: ys => if x.2 < y.2 then y :: insertByCount x ys else x :: y :: ys

/-- Stable sort by strictly descending count (ties keep first-seen order),
as Python's stable `sorted` with key `-count`. -/
def sortByCountDesc : List ((Nat × Nat) × Nat) → List ((Nat × Nat) × Nat)
  | [] => []
  | x :: xs => insertByCount x (sortByCountDesc xs)

/-- `SimpleTokenizer._count_combinations(tokens)`: adjacent-pair counts,
returned sorted by descending count. -/
def count_combinations (tokens : List Nat) : List ((Nat × Nat) × Nat) :=
  sortByCountDesc (countPairsLoop (tokens.zip tokens.tail) [])

/-- Python `max(iterable, key=get)`: keeps the first element whose value is
the strict maximum so far. -/
def pymaxGo (bk : Nat × Nat) (bv : Nat) : List ((Nat × Nat) × Nat) → Nat × Nat
  | [] => bk
  | (k, v) :: rest => if bv < v then pymaxGo k v rest else pymaxGo bk bv rest

/-- `max(combinations, key=combinations.get)`: `none` models the
`ValueError` Python raises when the dict is empty. -/
def pymax : List ((Nat × Nat) × Nat) → Option (Nat × Nat)
  | [] => none
  | (k, v) :: rest => some (pymaxGo k v rest)

/-- The raw-byte part of `_build_vocab`: `{idx: bytes([idx]) for idx in range(256)}`. -/
def baseVocab : List (Nat × List Nat) :=
  (List.range 256).map fun i => (i, [i])

/-- The merge part of `_build_vocab`: `vocab[idx] = vocab[p0] + vocab[p1]`
over the merges in insertion order; `none` models the `KeyError` when a
pair component is not yet in the vocabulary. -/
def buildVocabMerges : List (Nat × List Nat) → List ((Nat × Nat) × Nat) →
    Option (List (Nat × List Nat))
  | v, [] => some v
  | v, ((p0, p1), idx) :: rest =>
    match dget? v p0, dget? v p1 with
    | some b0, some b1 => buildVocabMerges (dinsert v idx (b0 ++ b1)) rest
    | _, _ => none

/-- The special-token part of `_build_vocab`:
`vocab[idx] = special_token.encode("utf-8")` in insertion order; `none`
models the `UnicodeEncodeError` on a special token with a lone surrogate. -/
def addSpecials : List (Nat × List Nat) → List (List Nat × Nat) →
    Option (List (Nat × List Nat))
  | v, [] => some v
  | v, (s, idx) :: rest =>
    match utf8EncodeList s with
    | some bs => addSpecials (dinsert v idx bs) rest
    | none => none

/-- `SimpleTokenizer._build_vocab()` as a function of the two maps. -/
def build_vocab_full (ms : List ((Nat × Nat) × Nat)) (sp : List (List Nat × Nat)) :
    Option (List (Nat × List Nat)) :=
  match buildVocabMerges baseVocab ms with
  | some v => addSpecials v sp
  | none => none

/-- The state of a `SimpleTokenizer`: the insertion-ordered `merges` and
`special_tokens` dicts and the stored `vocab` dict (updated only where the
Python code assigns `self.vocab`). -/
structure SimpleTokenizer where
  merges : List ((Nat × Nat) × Nat)
  special_tokens : List (List Nat × Nat)
  vocab : List (Nat × List Nat)
deriving DecidableEq

/-- `SimpleTokenizer.__init__`: empty maps, vocabulary built from them. -/
def initTokenizer : SimpleTokenizer :=
  { merges := [], special_tokens := [], vocab := baseVocab }

/-- `SimpleTokenizer.encode(input)`: UTF-8 bytes of the input, then every
merge rule applied in insertion order, one full pass each. -/
def encode (t : SimpleTokenizer) (input : List Nat) : Option (List Nat) :=
  match utf8EncodeList input with
  | some toks => some (t.merges.foldl (fun tk e => merge_bytepairs tk e.1 e.2) toks)
  | none => none

/-- The generator inside `decode`: look every id up in the vocabulary and
concatenate; `none` models the `KeyError` on an id absent from the dict. -/
def lookupAll (v : List (Nat × List Nat)) : List Nat → Option (List Nat)
  | [] => some []
  | i :: is =>
    match dget? v i, lookupAll v is with
    | some b, some bs => some (b ++ bs)
    | _, _ => none

/-- `SimpleTokenizer.decode(tokenized_input)`. -/
def decode (t : SimpleTokenizer) (ids : List Nat) : Option (List Nat) :=
  match lookupAll t.vocab ids with
  | some bs => some (utf8DecodeReplace bs)
  | none => none

/-- `SimpleTokenizer.add_special_token(special_str)`: guarded no-op when no
merges exist or the token is already registered; otherwise appends with id
`256 + len(merges) + len(special_tokens)`.  Note: the Python method does
not reassign `self.vocab`. -/
def add_special_token (t : SimpleTokenizer) (s : List Nat) : SimpleTokenizer :=
  if t.merges.length = 0 then t
  else if (dget? t.special_tokens s).isSome then t
  else
    { t with
      special_tokens :=
        dinsert t.special_tokens s (256 + t.merges.length + t.special_tokens.length) }

/-- The training loop of `SimpleTokenizer.train`: `fuel` counts remaining
iterations of `range(vocab_size - 256)`, `i` is the loop index; returns the
final working token sequence and merges, or `none` for the `ValueError` of
`max` over an empty dict. -/
def trainLoop : Nat → Nat → List Nat → List ((Nat × Nat) × Nat) →
    Option (List Nat × List ((Nat × Nat) × Nat))
  | 0, _, tokens, ms => some (tokens, ms)
  | fuel + 1, i, tokens, ms =>
    match pymax (count_combinations tokens) with
    | some top =>
      trainLoop fuel (i + 1) (merge_bytepairs tokens top (256 + i)) (dinsert ms top (256 + i))
    | none => none

/-- `SimpleTokenizer.train(corpus, vocab_size)`: encode the corpus, run
`vocab_size - 256` merge iterations (truncated subtraction: Python's
`range` of a negative is empty), rebuild the vocabulary. -/
def train (t : SimpleTokenizer) (corpus : List Nat) (vocab_size : Nat) :
    Option SimpleTokenizer :=
  match utf8EncodeList corpus with
  | none => none
  | some toks =>
    match trainLoop (vocab_size - 256) 0 toks [] with
    | none => none
    | some (_, ms) =>
      match build_vocab_full ms t.special_tokens with
      | none => none
      | some v => some { merges := ms, special_tokens := t.special_tokens, vocab := v }

/-- A tokenizer directory: the two files `tokenizer_merges.vm` and
`tokenizer_special.vm`, each an optional raw text (missing file = `none`). -/
structure TokDir where
  merges_file : Option (List Nat)
  special_file : Option (List Nat)
deriving DecidableEq

/-- `SimpleTokenizer.save(folder_name)`: one line `f"{idx1} {idx2}\n"` per
merge key in insertion order, one line `f"{token}\n"` per special token. -/
def save (t : SimpleTokenizer) : TokDir :=
  { merges_file :=
      some ((t.merges.map fun e => natDec e.1.1 ++ 32 :: natDec e.1.2 ++ [10]).flatten)
    special_file :=
      some ((t.special_tokens.map fun e => e.1 ++ [10]).flatten) }

/-- The merges-reading loop of `load`: parses each line and assigns
`self.merges[(idx1, idx2)] = i + 256`, returning the (possibly partially
mutated) map and a success flag. -/
def loadMergesLoop : List (List Nat) → Nat → List ((Nat × Nat) × Nat) →
    List ((Nat × Nat) × Nat) × Bool
  | [], _, ms => (ms, true)
  | row :: rest, i, ms =>
    match parsePairLine row with
    | some p => loadMergesLoop rest (i + 1) (dinsert ms p (i + 256))
    | none => (ms, false)

/-- The special-token-reading loop of `load`:
`self.special_tokens[token] = i + 256 + merges_length`; never fails. -/
def loadSpecialsLoop : List (List Nat) → Nat → Nat → List (List Nat × Nat) →
    List (List Nat × Nat)
  | [], _, _, sp => sp
  | s :: rest, i, mlen, sp => loadSpecialsLoop rest (i + 1) mlen (dinsert sp s (i + 256 + mlen))

/-- `SimpleTokenizer.load(folder_name)`.  Returns the tokenizer state after
the call together with a success flag: on failure (missing directory or
file, malformed line, vocabulary rebuild error) the exception propagates in
Python but the mutations made so far remain, which the returned state
reflects; `self.vocab` is only assigned on full success. -/
def load (t : SimpleTokenizer) (dir : Option TokDir) : SimpleTokenizer × Bool :=
  match dir with
  | none => (t, false)
  | some d =>
    match d.merges_file with
    | none => (t, false)
    | some mtext =>
      match loadMergesLoop ((splitSep 10 mtext).dropLast) 0 t.merges with
      | (ms, false) => ({ t with merges := ms }, false)
      | (ms, true) =>
        match d.special_file with
        | none => ({ t with merges := ms }, false)
        | some stext =>
          match build_vocab_full ms
              (loadSpecialsLoop ((splitSep 10 stext).dropLast) 0 ms.length
                t.special_tokens) with
          | none =>
            ({ merges := ms,
               special_tokens :=
                 loadSpecialsLoop ((splitSep 10 stext).dropLast) 0 ms.length
                   t.special_tokens,
               vocab := t.vocab }, false)
          | some v =>
            ({ merges := ms,
               special_tokens :=
                 loadSpecialsLoop ((splitSep 10 stext).dropLast) 0 ms.length
                   t.special_tokens,
               vocab := v }, true)

/-- Merges are exactly as training records them from offset `k` on: the
`j`-th entry maps some pair with both components `< k + j` to id `k + j`.
Used with `k = 256`. -/
def learnedFromB (k : Nat) : List ((Nat × Nat) × Nat) → Bool
  | [] => true
  | ((a, b), idx) :: rest =>
    decide (idx = k) && decide (a < k) && decide (b < k) && learnedFromB (k + 1) rest

/-- Merge ids are the canonical `k + j` for the `j`-th entry (components
unconstrained).  Used with `k = 256`. -/
def canonValsB (k : Nat) : List ((Nat × Nat) × Nat) → Bool
  | [] => true
  | (_, idx) :: rest => decide (idx = k) && canonValsB (k + 1) rest

/-- Special-token ids are the canonical `k + j` for the `j`-th entry.
Used with `k = 256 + merges.length`. -/
def canonSpecialsB (k : Nat) : List (List Nat × Nat) → Bool
  | [] => true
  | (_, idx) :: rest => decide (idx = k) && canonSpecialsB (k + 1) rest

/-- The byte expansion of a token id determined by a merge list, as a total
function: start from single bytes, and let each merge rule rewrite its id
to the concatenation of its components' expansions. -/
def mergeFun : List ((Nat × Nat) × Nat) → (Nat → List Nat) → Nat → List Nat
  | [], g => g
  | ((a, b), idx) :: rest, g =>
    mergeFun rest (fun x => if x = idx then g a ++ g b else g x)

/-- Single-byte expansion: ids below 256 stand for themselves. -/
def byteFun : Nat → List Nat := fun x => if x < 256 then [x] else []

/-- Adjacent pairs of a token sequence (`zip(tokens, tokens[1:])`). -/
def adjPairs (l : List Nat) : List (Nat × Nat) := l.zip l.tail

/-- Canonical merges map rebuilt by `load` from a key list starting at line
index `i`: key `j` positions in maps to `(i + j) + 256`. -/
def canonK : List (Nat × Nat) → Nat → List ((Nat × Nat) × Nat)
  | [], _ => []
  | k :: ks, i => (k, i + 256) :: canonK ks (i + 1)

/-- Canonical specials map rebuilt by `load`: the `j`-th key (from line
index `i`) maps to `(i + j) + 256 + mlen`. -/
def canonS : List (List Nat) → Nat → Nat → List (List Nat × Nat)
  | [], _, _ => []
  | s :: ss, i, mlen => (s, i + 256 + mlen) :: canonS ss (i + 1) mlen

/-! ## Association-list (Python dict) lemmas -/

theorem dget?_dinsert_self {κ ν : Type} [DecidableEq κ] (l : List (κ × ν)) (k : κ) (v : ν) :
    dget? (dinsert l k v) k = some v := by
  induction l with
  | nil => simp [dinsert, dget?]
  | cons e rest ih =>
    by_cases h : e.1 = k
    · simp [dinsert, h, dget?]
    · simp [dinsert, h, dget?, ih]

theorem dget?_dinsert_ne {κ ν : Type} [DecidableEq κ] (l : List (κ × ν)) (k k' : κ) (v : ν)
    (h : k' ≠ k) : dget? (dinsert l k v) k' = dget? l k' := by
  induction l with
  | nil =>
    simp only [dinsert, dget?]
    rw [if_neg (Ne.symm h)]
  | cons e rest ih =>
    obtain ⟨k1, v1⟩ := e
    by_cases he : k1 = k
    · subst he
      simp only [dinsert, if_pos rfl, dget?]
      rw [if_neg (Ne.symm h), if_neg (Ne.symm h)]
    · simp only [dinsert, if_neg he, dget?]
      by_cases he' : k1 = k'
      · rw [if_pos he', if_pos he']
      · rw [if_neg he', if_neg he', ih]

theorem dinsert_of_not_mem {κ ν : Type} [DecidableEq κ] (l : List (κ × ν)) (k : κ) (v : ν)
    (h : k ∉ l.map Prod.fst) : dinsert l k v = l ++ [(k, v)] := by
  induction l with
  | nil => simp [dinsert]
  | cons e rest ih =>
    simp only [List.map_cons, List.mem_cons] at h
    push_neg at h
    have hne : ¬e.1 = k := fun hh => h.1 hh.symm
    simp [dinsert, hne, ih h.2]

theorem mem_keys_dinsert {κ ν : Type} [DecidableEq κ] (l : List (κ × ν)) (k k' : κ) (v : ν)
    (h : k' ∈ l.map Prod.fst) : k' ∈ (dinsert l k v).map Prod.fst := by
  induction l with
  | nil => simp at h
  | cons e rest ih =>
    by_cases he : e.1 = k
    · subst he
      simp only [List.map_cons, List.mem_cons] at h
      rcases h with h | h
      · simp [dinsert, dget?, h]
      · simp [dinsert, List.map_cons, List.mem_cons, h]
    · simp only [List.map_cons, List.mem_cons] at h
      rcases h with h | h
      · simp [dinsert, he, h]
      · simp [dinsert, he, ih h]

theorem keys_dinsert_sub {κ ν : Type} [DecidableEq κ] (l : List (κ × ν)) (k k' : κ) (v : ν)
    (h : k' ∈ (dinsert l k v).map Prod.fst) : k' = k ∨ k' ∈ l.map Prod.fst := by
  induction l with
  | nil => simpa [dinsert] using h
  | cons e rest ih =>
    by_cases he : e.1 = k
    · simp only [dinsert, he, if_pos] at h
      simp only [List.map_cons, List.mem_cons] at h ⊢
      rcases h with h | h
      · exact Or.inl h
      · exact Or.inr (Or.inr h)
    · simp only [dinsert, he, if_false, List.map_cons, List.mem_cons] at h ⊢
      rcases h with h | h
      · exact Or.inr (Or.inl h)
      · rcases ih h with h' | h'
        · exact Or.inl h'
        · exact Or.inr (Or.inr h')

theorem dget?_append {κ ν : Type} [DecidableEq κ] (l1 l2 : List (κ × ν)) (k : κ) :
    dget? (l1 ++ l2) k =
      match dget? l1 k with
      | some v => some v
      | none => dget? l2 k := by
  induction l1 with
  | nil => simp [dget?]
  | cons e rest ih =>
    by_cases he : e.1 = k
    · simp [dget?, he]
    · simp [dget?, he, ih]

/-! ## Splitting and numeral lemmas -/

theorem splitSep_ne_nil (sep : Nat) (l : List Nat) : splitSep sep l ≠ [] := by
  cases l with
  | nil => simp [splitSep]
  | cons c rest =>
    by_cases h : c = sep
    · simp [splitSep, h]
    · simp only [splitSep, h, if_false]
      cases hs : splitSep sep rest with
      | nil => simp
      | cons a as => simp

theorem splitSep_sep_cons (sep : Nat) (line rest : List Nat) (h : sep ∉ line) :
    splitSep sep (line ++ sep :: rest) = line :: splitSep sep rest := by
  induction line with
  | nil => simp [splitSep]
  | cons c cs ih =>
    simp only [List.mem_cons] at h
    push_neg at h
    have hcs : ¬c = sep := fun hh => h.1 hh.symm
    rw [List.cons_append]
    simp only [splitSep, hcs, if_false]
    rw [ih h.2]

theorem splitSep_flatten_dropLast (sep : Nat) (lines : List (List Nat))
    (h : ∀ l ∈ lines, sep ∉ l) :
    (splitSep sep ((lines.map fun l => l ++ [sep]).flatten)).dropLast = lines := by
  induction lines with
  | nil => simp [splitSep]
  | cons l ls ih =>
    simp only [List.map_cons, List.flatten_cons, List.append_assoc, List.singleton_append]
    rw [splitSep_sep_cons sep l _ (h l (List.mem_cons_self l ls))]
    rw [List.dropLast_cons_of_ne_nil (splitSep_ne_nil sep _)]
    rw [ih (fun x hx => h x (List.mem_cons_of_mem l hx))]

theorem natDecAux_digits (fuel n : Nat) : ∀ d ∈ natDecAux fuel n, 48 ≤ d ∧ d ≤ 57 := by
  induction fuel generalizing n with
  | zero => simp [natDecAux]
  | succ fuel ih =>
    intro d hd
    by_cases h : n < 10
    · simp only [natDecAux, h, if_pos, List.mem_singleton] at hd
      omega
    · simp only [natDecAux, h, if_false, List.mem_append, List.mem_singleton] at hd
      rcases hd with hd | hd
      · exact ih (n / 10) d hd
      · have : n % 10 < 10 := Nat.mod_lt _ (by omega)
        omega

theorem natDec_digits (n : Nat) : ∀ d ∈ natDec n, 48 ≤ d ∧ d ≤ 57 :=
  natDecAux_digits (n + 1) n

theorem natDecAux_ne_nil (fuel n : Nat) (h : n < fuel) : natDecAux fuel n ≠ [] := by
  cases fuel with
  | zero => omega
  | succ fuel =>
    by_cases h10 : n < 10
    · simp [natDecAux, h10]
    · simp only [natDecAux, h10, if_false]
      simp

theorem digitsAcc_append (acc : Nat) (xs ys : List Nat) :
    digitsAcc acc (xs ++ ys) =
      match digitsAcc acc xs with
      | some a => digitsAcc a ys
      | none => none := by
  induction xs generalizing acc with
  | nil => simp [digitsAcc]
  | cons c cs ih =>
    by_cases h : 48 ≤ c ∧ c ≤ 57
    · simp [digitsAcc, h, ih]
    · simp [digitsAcc, h]

theorem digitsAcc_natDecAux (fuel n acc : Nat) (h : n < fuel) :
    digitsAcc acc (natDecAux fuel n) = some (acc * 10 ^ (natDecAux fuel n).length + n) := by
  induction fuel generalizing n acc with
  | zero => exact absurd h (by omega)
  | succ fuel ih =>
    by_cases h10 : n < 10
    · have hc : 48 ≤ 48 + n ∧ 48 + n ≤ 57 := by omega
      simp only [natDecAux, h10, if_pos, List.length_singleton, pow_one]
      simp only [digitsAcc]
      rw [if_pos hc]
      congr 1
      omega
    · simp only [natDecAux, h10, if_false]
      rw [digitsAcc_append]
      have hlt : n / 10 < fuel := by
        have h2 := Nat.div_lt_self (show 0 < n by omega) (show 1 < 10 by omega)
        omega
      rw [ih (n / 10) acc hlt]
      have hd : 48 ≤ 48 + n % 10 ∧ 48 + n % 10 ≤ 57 := by
        have h3 : n % 10 < 10 := Nat.mod_lt _ (by omega)
        omega
      simp only [digitsAcc]
      rw [if_pos hd]
      simp only [digitsAcc, List.length_append, List.length_singleton]
      congr 1
      have hdig : 48 + n % 10 - 48 = n % 10 := by omega
      rw [hdig, pow_succ]
      have hdiv : n / 10 * 10 + n % 10 = n := by omega
      calc (acc * 10 ^ (natDecAux fuel (n / 10)).length + n / 10) * 10 + n % 10
          = acc * (10 ^ (natDecAux fuel (n / 10)).length * 10) + (n / 10 * 10 + n % 10) := by
            ring
        _ = acc * (10 ^ (natDecAux fuel (n / 10)).length * 10) + n := by rw [hdiv]

theorem pyint?_natDec (n : Nat) : pyint? (natDec n) = some n := by
  unfold natDec
  cases hE : natDecAux (n + 1) n with
  | nil => exact absurd hE (natDecAux_ne_nil (n + 1) n (by omega))
  | cons c rest =>
    have hc : 48 ≤ c ∧ c ≤ 57 := by
      apply natDecAux_digits (n + 1) n
      rw [hE]; exact List.mem_cons_self _ _
    have hval := digitsAcc_natDecAux (n + 1) n 0 (by omega)
    rw [hE] at hval
    simp only [digitsAcc] at hval
    rw [if_pos hc] at hval
    simp only [Nat.zero_mul, Nat.zero_add] at hval
    simp only [pyint?]
    rw [if_pos hc]
    exact hval

/-! ## Merge engine lemmas -/

theorem mergeLoopGo_eq_scan (tokens : List Nat) (p : Nat × Nat) (index : Nat) :
    ∀ fuel i acc, tokens.length - i ≤ fuel →
      mergeLoopGo tokens p index fuel i acc = acc ++ mergeScan (tokens.drop i) p index := by
  intro fuel
  induction fuel with
  | zero =>
    intro i acc hf
    have hig : tokens.length ≤ i := by omega
    simp [mergeLoopGo, List.drop_eq_nil_of_le hig, mergeScan, Nat.not_lt.mpr hig]
  | succ fuel ih =>
    intro i acc hf
    by_cases hi : i < tokens.length
    · have hdrop := List.drop_eq_getElem_cons hi
      by_cases hc : i < tokens.length - 1 ∧ tokens.getD i 0 = p.1 ∧ tokens.getD (i + 1) 0 = p.2
      · obtain ⟨hlt, h1, h2⟩ := hc
        have hi1 : i + 1 < tokens.length := by omega
        have hdrop1 := List.drop_eq_getElem_cons hi1
        simp only [mergeLoopGo, if_pos hi]
        rw [if_pos ⟨hlt, h1, h2⟩]
        rw [ih (i + 2) (acc ++ [index]) (by omega)]
        rw [hdrop, hdrop1]
        have hg1 : tokens.getD i 0 = tokens[i] := List.getD_eq_getElem tokens 0 hi
        have hg2 : tokens.getD (i + 1) 0 = tokens[i + 1] := List.getD_eq_getElem tokens 0 hi1
        rw [hg1] at h1
        rw [hg2] at h2
        simp only [mergeScan, h1, h2, and_self, if_pos]
        simp
      · simp only [mergeLoopGo, if_pos hi]
        rw [if_neg hc]
        rw [ih (i + 1) (acc ++ [tokens.getD i 0]) (by omega)]
        have hg1 : tokens.getD i 0 = tokens[i] := List.getD_eq_getElem tokens 0 hi
        by_cases hend : i + 1 < tokens.length
        · have hdrop1 := List.drop_eq_getElem_cons hend
          have hg2 : tokens.getD (i + 1) 0 = tokens[i + 1] := List.getD_eq_getElem tokens 0 hend
          have hne : ¬(tokens[i] = p.1 ∧ tokens[i + 1] = p.2) := by
            intro hcc
            exact hc ⟨by omega, by rw [hg1]; exact hcc.1, by rw [hg2]; exact hcc.2⟩
          rw [hdrop, hdrop1]
          simp only [mergeScan]
          rw [if_neg hne]
          rw [hg1]
          simp
        · have hlen : tokens.length = i + 1 := by omega
          have hd1 : tokens.drop (i + 1) = [] := List.drop_eq_nil_of_le (by omega)
          rw [hdrop, hd1, hg1]
          simp [mergeScan]
    · simp [mergeLoopGo, hi, List.drop_eq_nil_of_le (by omega : tokens.length ≤ i), mergeScan]

/-- The source's while loop computes exactly the left-to-right scan. -/
theorem merge_bytepairs_eq_scan (tokens : List Nat) (p : Nat × Nat) (index : Nat) :
    merge_bytepairs tokens p index = mergeScan tokens p index := by
  unfold merge_bytepairs
  rw [mergeLoopGo_eq_scan tokens p index tokens.length 0 [] (by omega)]
  simp

theorem mergeScan_length (p : Nat × Nat) (index : Nat) :
    ∀ tokens : List Nat, (mergeScan tokens p index).length ≤ tokens.length
  | [] => by simp [mergeScan]
  | [x] => by simp [mergeScan]
  | x :: y :: rest => by
    by_cases hc : x = p.1 ∧ y = p.2
    · simp only [mergeScan, if_pos hc, List.length_cons]
      have := mergeScan_length p index rest
      omega
    · simp only [mergeScan, if_neg hc, List.length_cons]
      have := mergeScan_length p index (y :: rest)
      simp only [List.length_cons] at this
      omega

theorem mergeScan_mem (p : Nat × Nat) (index : Nat) :
    ∀ tokens : List Nat, ∀ x ∈ mergeScan tokens p index, x = index ∨ x ∈ tokens
  | [] => by simp [mergeScan]
  | [z] => by simp [mergeScan]
  | z :: y :: rest => by
    intro x hx
    by_cases hc : z = p.1 ∧ y = p.2
    · simp only [mergeScan, if_pos hc, List.mem_cons] at hx
      rcases hx with hx | hx
      · exact Or.inl hx
      · rcases mergeScan_mem p index rest x hx with h | h
        · exact Or.inl h
        · exact Or.inr (by simp [h])
    · simp only [mergeScan, if_neg hc, List.mem_cons] at hx
      rcases hx with hx | hx
      · exact Or.inr (by simp [hx])
      · rcases mergeScan_mem p index (y :: rest) x hx with h | h
        · exact Or.inl h
        · exact Or.inr (by simp only [List.mem_cons] at h ⊢; tauto)

theorem mergeScan_ne_nil (p : Nat × Nat) (index : Nat) (z : Nat) (rest : List Nat) :
    mergeScan (z :: rest) p index ≠ [] := by
  cases rest with
  | nil => simp [mergeScan]
  | cons y rest' =>
    by_cases hc : z = p.1 ∧ y = p.2
    · simp [mergeScan, hc]
    · simp [mergeScan, hc]

theorem mergeScan_head (p : Nat × Nat) (index : Nat) (z : Nat) (rest : List Nat) :
    (mergeScan (z :: rest) p index).head? = some index ∨
      (mergeScan (z :: rest) p index).head? = some z := by
  cases rest with
  | nil => simp [mergeScan]
  | cons y rest' =>
    by_cases hc : z = p.1 ∧ y = p.2
    · simp [mergeScan, hc]
    · simp [mergeScan, hc]

theorem adjPairs_nil : adjPairs [] = [] := rfl

theorem adjPairs_single (x : Nat) : adjPairs [x] = [] := rfl

theorem adjPairs_cons_cons (x y : Nat) (l : List Nat) :
    adjPairs (x :: y :: l) = (x, y) :: adjPairs (y :: l) := rfl

theorem mem_adjPairs_cons (z : Nat) (l : List Nat) (q : Nat × Nat) (h : q ∈ adjPairs l) :
    q ∈ adjPairs (z :: l) := by
  cases l with
  | nil => simp [adjPairs_nil] at h
  | cons y rest =>
    rw [adjPairs_cons_cons]
    exact List.mem_cons_of_mem _ h

theorem mem_adjPairs_mem (q : Nat × Nat) :
    ∀ l : List Nat, q ∈ adjPairs l → q.1 ∈ l ∧ q.2 ∈ l
  | [] => by simp [adjPairs_nil]
  | [z] => by simp [adjPairs_single]
  | z :: y :: rest => by
    intro h
    rw [adjPairs_cons_cons, List.mem_cons] at h
    rcases h with h | h
    · subst h
      exact ⟨List.mem_cons_self _ _, List.mem_cons_of_mem _ (List.mem_cons_self _ _)⟩
    · have := mem_adjPairs_mem q (y :: rest) h
      exact ⟨List.mem_cons_of_mem _ this.1, List.mem_cons_of_mem _ this.2⟩

/-- After a full single-merge pass with a fresh replacement id, the target
pair is no longer adjacent anywhere in the result. -/
theorem mergeScan_no_pair (a b index : Nat) (ha : index ≠ a) (hb : index ≠ b) :
    ∀ tokens, (a, b) ∉ adjPairs (mergeScan tokens (a, b) index)
  | [] => by simp [mergeScan, adjPairs_nil]
  | [z] => by simp [mergeScan, adjPairs_single]
  | z :: y :: rest => by
    by_cases hc : z = a ∧ y = b
    · have hc' : z = (a, b).1 ∧ y = (a, b).2 := hc
      simp only [mergeScan, if_pos hc']
      intro hmem
      cases hS : mergeScan rest (a, b) index with
      | nil => rw [hS] at hmem; simp [adjPairs_single] at hmem
      | cons s0 S =>
        rw [hS] at hmem
        rw [adjPairs_cons_cons, List.mem_cons] at hmem
        rcases hmem with h1 | h1
        · rw [Prod.mk.injEq] at h1
          exact ha h1.1.symm
        · have hrec := mergeScan_no_pair a b index ha hb rest
          rw [hS] at hrec
          exact hrec h1
    · have hc' : ¬(z = (a, b).1 ∧ y = (a, b).2) := hc
      simp only [mergeScan, if_neg hc']
      intro hmem
      cases hS : mergeScan (y :: rest) (a, b) index with
      | nil => exact mergeScan_ne_nil (a, b) index y rest hS
      | cons t0 T =>
        rw [hS] at hmem
        rw [adjPairs_cons_cons, List.mem_cons] at hmem
        rcases hmem with h1 | h1
        · rw [Prod.mk.injEq] at h1
          obtain ⟨hza, hbt⟩ := h1
          have hhead := mergeScan_head (a, b) index y rest
          rw [hS] at hhead
          simp only [List.head?_cons] at hhead
          rcases hhead with hh | hh
          · have ht0 : t0 = index := Option.some_inj.mp hh
            exact hb (by omega)
          · have hy : t0 = y := Option.some_inj.mp hh
            exact hc ⟨by omega, by omega⟩
        · have hrec := mergeScan_no_pair a b index ha hb (y :: rest)
          rw [hS] at hrec
          exact hrec h1
    termination_by tokens => tokens.length
    decreasing_by
      · simp; omega
      · simp

/-- A single-merge pass creates no new adjacency that avoids the
replacement id: any adjacent pair of the result was adjacent in the input
or involves the replacement id. -/
theorem mergeScan_adj (p : Nat × Nat) (index : Nat) :
    ∀ tokens, ∀ q ∈ adjPairs (mergeScan tokens p index),
      q ∈ adjPairs tokens ∨ q.1 = index ∨ q.2 = index
  | [] => by simp [mergeScan, adjPairs_nil]
  | [z] => by simp [mergeScan, adjPairs_single]
  | z :: y :: rest => by
    intro q hq
    by_cases hc : z = p.1 ∧ y = p.2
    · simp only [mergeScan, if_pos hc] at hq
      cases hS : mergeScan rest p index with
      | nil => rw [hS] at hq; simp [adjPairs_single] at hq
      | cons s0 S =>
        rw [hS] at hq
        rw [adjPairs_cons_cons, List.mem_cons] at hq
        rcases hq with h1 | h1
        · exact Or.inr (Or.inl (by rw [h1]))
        · have hrec := mergeScan_adj p index rest q (by rw [hS]; exact h1)
          rcases hrec with h | h
          · exact Or.inl (mem_adjPairs_cons _ _ _ (mem_adjPairs_cons _ _ _ h))
          · exact Or.inr h
    · simp only [mergeScan, if_neg hc] at hq
      cases hS : mergeScan (y :: rest) p index with
      | nil => exact absurd hS (mergeScan_ne_nil p index y rest)
      | cons t0 T =>
        rw [hS] at hq
        rw [adjPairs_cons_cons, List.mem_cons] at hq
        rcases hq with h1 | h1
        · have hhead := mergeScan_head p index y rest
          rw [hS] at hhead
          simp only [List.head?_cons] at hhead
          rcases hhead with hh | hh
          · have : t0 = index := Option.some_inj.mp hh
            exact Or.inr (Or.inr (by rw [h1, this]))
          · have hty : t0 = y := Option.some_inj.mp hh
            left
            rw [adjPairs_cons_cons, List.mem_cons]
            left
            rw [h1, hty]
        · have hrec := mergeScan_adj p index (y :: rest) q (by rw [hS]; exact h1)
          rcases hrec with h | h
          · exact Or.inl (mem_adjPairs_cons _ _ _ h)
          · exact Or.inr h
    termination_by tokens => tokens.length
    decreasing_by
      · simp; omega
      · simp

/-- A single-merge pass preserves byte content under any expansion `F`
that maps the replacement id to the concatenation of the pair's
expansions. -/
theorem mergeScan_content (F : Nat → List Nat) (a b index : Nat)
    (hF : F index = F a ++ F b) :
    ∀ tokens, ((mergeScan tokens (a, b) index).map F).flatten = (tokens.map F).flatten
  | [] => rfl
  | [z] => rfl
  | z :: y :: rest => by
    by_cases hc : z = a ∧ y = b
    · have hc' : z = (a, b).1 ∧ y = (a, b).2 := hc
      simp only [mergeScan, if_pos hc', List.map_cons, List.flatten_cons]
      rw [mergeScan_content F a b index hF rest, hF, hc.1, hc.2]
      simp [List.append_assoc]
    · have hc' : ¬(z = (a, b).1 ∧ y = (a, b).2) := hc
      simp only [mergeScan, if_neg hc', List.map_cons, List.flatten_cons]
      rw [mergeScan_content F a b index hF (y :: rest)]
      simp only [List.map_cons, List.flatten_cons]
    termination_by tokens => tokens.length
    decreasing_by
      · simp; omega
      · simp

/-! ## Vocabulary-build lemmas -/

theorem learnedFromB_cons (k a b idx : Nat) (rest : List ((Nat × Nat) × Nat))
    (h : learnedFromB k (((a, b), idx) :: rest) = true) :
    idx = k ∧ a < k ∧ b < k ∧ learnedFromB (k + 1) rest = true := by
  simp only [learnedFromB, Bool.and_eq_true, decide_eq_true_eq] at h
  exact ⟨h.1.1.1, h.1.1.2, h.1.2, h.2⟩

theorem mergeFun_lt :
    ∀ (ms : List ((Nat × Nat) × Nat)) (k : Nat) (g : Nat → List Nat) (x : Nat),
      learnedFromB k ms = true → x < k → mergeFun ms g x = g x
  | [], _, _, _ => fun _ _ => rfl
  | ((a, b), idx) :: rest, k, g, x => by
    intro h hx
    obtain ⟨hidx, _, _, hrest⟩ := learnedFromB_cons k a b idx rest h
    simp only [mergeFun]
    rw [mergeFun_lt rest (k + 1) _ x hrest (by omega)]
    have : x ≠ idx := by omega
    simp [this]

theorem mergeFun_entry :
    ∀ (ms : List ((Nat × Nat) × Nat)) (k : Nat) (g : Nat → List Nat),
      learnedFromB k ms = true →
      ∀ e ∈ ms, mergeFun ms g e.2 = mergeFun ms g e.1.1 ++ mergeFun ms g e.1.2
  | [], _, _, _ => by simp
  | ((a, b), idx) :: rest, k, g, h => by
    intro e he
    obtain ⟨hidx, ha, hb, hrest⟩ := learnedFromB_cons k a b idx rest h
    rw [List.mem_cons] at he
    simp only [mergeFun]
    rcases he with he | he
    · subst he
      simp only
      rw [mergeFun_lt rest (k + 1) _ idx hrest (by omega)]
      rw [mergeFun_lt rest (k + 1) _ a hrest (by omega)]
      rw [mergeFun_lt rest (k + 1) _ b hrest (by omega)]
      have hai : a ≠ idx := by omega
      have hbi : b ≠ idx := by omega
      simp [hai, hbi]
    · exact mergeFun_entry rest (k + 1) _ hrest e he

theorem dget?_baseVocabAux (n x : Nat) :
    dget? ((List.range n).map fun i => (i, ([i] : List Nat))) x =
      if x < n then some [x] else none := by
  induction n with
  | zero => simp [dget?]
  | succ n ih =>
    rw [List.range_succ, List.map_append, dget?_append, ih]
    by_cases hx : x < n
    · have h1 : x < n + 1 := by omega
      simp [hx, h1]
    · by_cases hxn : x = n
      · subst hxn
        have h2 : x < x + 1 := by omega
        simp [dget?, h2]
      · have h1 : ¬x < n + 1 := by omega
        simp [hx, h1, dget?, Ne.symm hxn]

theorem dget?_baseVocab (x : Nat) :
    dget? baseVocab x = if x < 256 then some [x] else none :=
  dget?_baseVocabAux 256 x

theorem buildVocabMerges_inv :
    ∀ (ms : List ((Nat × Nat) × Nat)) (k : Nat) (g : Nat → List Nat)
      (v0 : List (Nat × List Nat)),
      learnedFromB k ms = true →
      (∀ x, x < k → dget? v0 x = some (g x)) →
      ∃ v, buildVocabMerges v0 ms = some v ∧
        ∀ x, x < k + ms.length → dget? v x = some (mergeFun ms g x)
  | [], k, g, v0 => by
    intro _ hbase
    refine ⟨v0, rfl, ?_⟩
    intro x hx
    simp only [List.length_nil, Nat.add_zero] at hx
    exact hbase x hx
  | ((a, b), idx) :: rest, k, g, v0 => by
    intro h hbase
    obtain ⟨hidx, ha, hb, hrest⟩ := learnedFromB_cons k a b idx rest h
    subst hidx
    have hga := hbase a ha
    have hgb := hbase b hb
    have hstep :
        buildVocabMerges v0 (((a, b), idx) :: rest) =
          buildVocabMerges (dinsert v0 idx (g a ++ g b)) rest := by
      simp only [buildVocabMerges, hga, hgb]
    have hbase' : ∀ x, x < idx + 1 →
        dget? (dinsert v0 idx (g a ++ g b)) x =
          some ((fun x => if x = idx then g a ++ g b else g x) x) := by
      intro x hx
      by_cases hxk : x = idx
      · subst hxk
        simp [dget?_dinsert_self]
      · rw [dget?_dinsert_ne v0 idx x _ hxk]
        simp only [hxk, if_false]
        exact hbase x (by omega)
    obtain ⟨v, hv, hlook⟩ :=
      buildVocabMerges_inv rest (idx + 1) _ (dinsert v0 idx (g a ++ g b)) hrest hbase'
    refine ⟨v, by rw [hstep]; exact hv, ?_⟩
    intro x hx
    simp only [mergeFun]
    exact hlook x (by simp only [List.length_cons] at hx; omega)

theorem canonSpecialsB_cons (k : Nat) (s : List Nat) (idx : Nat)
    (rest : List (List Nat × Nat)) (h : canonSpecialsB k ((s, idx) :: rest) = true) :
    idx = k ∧ canonSpecialsB (k + 1) rest = true := by
  simp only [canonSpecialsB, Bool.and_eq_true, decide_eq_true_eq] at h
  exact h

theorem addSpecials_frame :
    ∀ (sp : List (List Nat × Nat)) (k : Nat) (v v' : List (Nat × List Nat)),
      canonSpecialsB k sp = true → addSpecials v sp = some v' →
      ∀ x, x < k → dget? v' x = dget? v x
  | [], _, v, v' => by
    intro _ hv x _
    simp only [addSpecials, Option.some_inj] at hv
    rw [hv]
  | (s, idx) :: rest, k, v, v' => by
    intro hcanon hv x hx
    obtain ⟨hidx, hrest⟩ := canonSpecialsB_cons k s idx rest hcanon
    subst hidx
    simp only [addSpecials] at hv
    cases hE : utf8EncodeList s with
    | none => rw [hE] at hv; exact absurd hv (by simp)
    | some bs =>
      rw [hE] at hv
      have := addSpecials_frame rest (idx + 1) (dinsert v idx bs) v' hrest hv x (by omega)
      rw [this, dget?_dinsert_ne v idx x bs (by omega)]

theorem foldScan_inv :
    ∀ (ms : List ((Nat × Nat) × Nat)) (k : Nat) (g : Nat → List Nat) (toks : List Nat),
      learnedFromB k ms = true →
      (∀ x ∈ toks, x < k) →
      (∀ x ∈ ms.foldl (fun tk e => mergeScan tk e.1 e.2) toks, x < k + ms.length) ∧
      ((ms.foldl (fun tk e => mergeScan tk e.1 e.2) toks).map (mergeFun ms g)).flatten
        = (toks.map (mergeFun ms g)).flatten
  | [], k, g, toks => by
    intro _ htoks
    refine ⟨fun x hx => ?_, rfl⟩
    simpa using htoks x hx
  | ((a, b), idx) :: rest, k, g, toks => by
    intro h htoks
    obtain ⟨hidx, ha, hb, hrest⟩ := learnedFromB_cons k a b idx rest h
    subst hidx
    have hF : mergeFun (((a, b), idx) :: rest) g idx =
        mergeFun (((a, b), idx) :: rest) g a ++ mergeFun (((a, b), idx) :: rest) g b := by
      have := mergeFun_entry (((a, b), idx) :: rest) idx g h ((a, b), idx)
        (List.mem_cons_self _ _)
      simpa using this
    have htoks' : ∀ x ∈ mergeScan toks (a, b) idx, x < idx + 1 := by
      intro x hx
      rcases mergeScan_mem (a, b) idx toks x hx with h1 | h1
      · omega
      · have := htoks x h1; omega
    have hIH := foldScan_inv rest (idx + 1)
      (fun x => if x = idx then g a ++ g b else g x) (mergeScan toks (a, b) idx)
      hrest htoks'
    constructor
    · intro x hx
      simp only [List.foldl_cons] at hx
      have := hIH.1 x hx
      simp only [List.length_cons]
      omega
    · simp only [List.foldl_cons, mergeFun]
      rw [hIH.2]
      exact mergeScan_content (mergeFun (((a, b), idx) :: rest) g) a b idx hF toks

theorem flatten_map_id (F : Nat → List Nat) :
    ∀ l : List Nat, (∀ x ∈ l, F x = [x]) → (l.map F).flatten = l
  | [] => by simp
  | x :: rest => by
    intro h
    simp only [List.map_cons, List.flatten_cons]
    rw [h x (List.mem_cons_self _ _),
      flatten_map_id F rest fun y hy => h y (List.mem_cons_of_mem _ hy)]
    rfl

/-! ## Pair-count selection lemmas -/

theorem pymaxGo_mem (bk : Nat × Nat) (bv : Nat) :
    ∀ l : List ((Nat × Nat) × Nat), pymaxGo bk bv l = bk ∨ pymaxGo bk bv l ∈ l.map Prod.fst
  | [] => Or.inl rfl
  | (kk, vv) :: rest => by
    by_cases h : bv < vv
    · simp only [pymaxGo, if_pos h]
      rcases pymaxGo_mem kk vv rest with h1 | h1
      · right
        rw [h1]
        simp
      · right
        simp [h1]
    · simp only [pymaxGo, if_neg h]
      rcases pymaxGo_mem bk bv rest with h1 | h1
      · exact Or.inl h1
      · right
        simp [h1]

theorem pymax_mem (l : List ((Nat × Nat) × Nat)) (p : Nat × Nat) (h : pymax l = some p) :
    p ∈ l.map Prod.fst := by
  cases l with
  | nil => simp [pymax] at h
  | cons e rest =>
    obtain ⟨kk, vv⟩ := e
    simp only [pymax, Option.some_inj] at h
    rcases pymaxGo_mem kk vv rest with h1 | h1
    · rw [← h, h1]
      simp
    · rw [← h]
      simp only [List.map_cons, List.mem_cons]
      exact Or.inr h1

theorem keys_insertByCount (x : (Nat × Nat) × Nat) :
    ∀ (l : List ((Nat × Nat) × Nat)) (q : Nat × Nat),
      q ∈ (insertByCount x l).map Prod.fst → q = x.1 ∨ q ∈ l.map Prod.fst
  | [], q => by simp [insertByCount]
  | y :: ys, q => by
    intro h
    by_cases hc : x.2 < y.2
    · simp only [insertByCount, if_pos hc, List.map_cons, List.mem_cons] at h
      rcases h with h | h
      · exact Or.inr (by simp [h])
      · rcases keys_insertByCount x ys q h with h1 | h1
        · exact Or.inl h1
        · exact Or.inr (by simp [h1])
    · simp only [insertByCount, if_neg hc, List.map_cons, List.mem_cons] at h
      rcases h with h | h
      · exact Or.inl h
      · rcases h with h | h
        · exact Or.inr (by simp [h])
        · exact Or.inr (by simp [h])

theorem keys_sortByCountDesc :
    ∀ (l : List ((Nat × Nat) × Nat)) (q : Nat × Nat),
      q ∈ (sortByCountDesc l).map Prod.fst → q ∈ l.map Prod.fst
  | [], q => by simp [sortByCountDesc]
  | x :: xs, q => by
    intro h
    simp only [sortByCountDesc] at h
    rcases keys_insertByCount x (sortByCountDesc xs) q h with h1 | h1
    · simp [h1]
    · have := keys_sortByCountDesc xs q h1
      simp [this]

theorem keys_countPairsLoop :
    ∀ (ps : List (Nat × Nat)) (acc : List ((Nat × Nat) × Nat)) (q : Nat × Nat),
      q ∈ (countPairsLoop ps acc).map Prod.fst → q ∈ acc.map Prod.fst ∨ q ∈ ps
  | [], acc, q => by
    intro h
    exact Or.inl h
  | p :: rest, acc, q => by
    intro h
    simp only [countPairsLoop] at h
    rcases keys_countPairsLoop rest _ q h with h1 | h1
    · rcases keys_dinsert_sub acc p q _ h1 with h2 | h2
      · exact Or.inr (by simp [h2])
      · exact Or.inl h2
    · exact Or.inr (by simp [h1])

theorem count_combinations_keys (tokens : List Nat) (q : Nat × Nat)
    (h : q ∈ (count_combinations tokens).map Prod.fst) : q ∈ adjPairs tokens := by
  unfold count_combinations at h
  have h1 := keys_sortByCountDesc _ q h
  rcases keys_countPairsLoop _ [] q h1 with h2 | h2
  · simp at h2
  · exact h2

theorem pymax_adj (tokens : List Nat) (p : Nat × Nat)
    (h : pymax (count_combinations tokens) = some p) : p ∈ adjPairs tokens :=
  count_combinations_keys tokens p (pymax_mem _ p h)

/-! ## Training-loop replay -/

theorem encChar_bytes (c : Nat) (hc : validScalarB c = true) : ∀ b ∈ encChar c, b < 256 := by
  simp only [validScalarB, Bool.and_eq_true, Bool.or_eq_true, decide_eq_true_eq] at hc
  intro b hb
  unfold encChar at hb
  split_ifs at hb with h1 h2 h3 <;>
    simp only [List.mem_cons, List.not_mem_nil, or_false] at hb
  · omega
  · have : c / 64 < 32 := by omega
    rcases hb with hb | hb <;> omega
  · have d1 : c / 4096 < 16 := by omega
    have d2 : c / 64 % 64 < 64 := Nat.mod_lt _ (by omega)
    rcases hb with hb | hb | hb <;> omega
  · have d1 : c / 262144 < 5 := by omega
    have d2 : c / 4096 % 64 < 64 := Nat.mod_lt _ (by omega)
    have d3 : c / 64 % 64 < 64 := Nat.mod_lt _ (by omega)
    rcases hb with hb | hb | hb | hb <;> omega

theorem utf8EncodeList_bytes :
    ∀ (T B : List Nat), utf8EncodeList T = some B → ∀ x ∈ B, x < 256
  | [], B => by
    intro h x hx
    simp only [utf8EncodeList, Option.some_inj] at h
    rw [← h] at hx
    simp at hx
  | c :: cs, B => by
    intro h x hx
    simp only [utf8EncodeList] at h
    by_cases hv : validScalarB c = true
    · rw [if_pos hv] at h
      cases hE : utf8EncodeList cs with
      | none => rw [hE] at h; exact absurd h (by simp)
      | some bs =>
        rw [hE] at h
        simp only [Option.some_inj] at h
        rw [← h, List.mem_append] at hx
        rcases hx with hx | hx
        · exact encChar_bytes c hv x hx
        · exact utf8EncodeList_bytes cs bs hE x hx
    · rw [if_neg hv] at h
      exact absurd h (by simp)

theorem trainLoop_replay :
    ∀ (fuel i : Nat) (toks toks0 : List Nat) (ms : List ((Nat × Nat) × Nat))
      (ftoks : List Nat) (fms : List ((Nat × Nat) × Nat)),
      (∀ x ∈ toks, x < 256 + i) →
      (∀ p ∈ ms.map Prod.fst, p ∉ adjPairs toks ∧ p.1 < 256 + i ∧ p.2 < 256 + i) →
      List.foldl (fun tk e => merge_bytepairs tk e.1 e.2) toks0 ms = toks →
      trainLoop fuel i toks ms = some (ftoks, fms) →
      List.foldl (fun tk e => merge_bytepairs tk e.1 e.2) toks0 fms = ftoks := by
  intro fuel
  induction fuel with
  | zero =>
    intro i toks toks0 ms ftoks fms _ _ hreplay hloop
    simp only [trainLoop, Option.some_inj, Prod.mk.injEq] at hloop
    rw [← hloop.2, hreplay, hloop.1]
  | succ fuel ih =>
    intro i toks toks0 ms ftoks fms htoks hms hreplay hloop
    simp only [trainLoop] at hloop
    cases hp : pymax (count_combinations toks) with
    | none => rw [hp] at hloop; exact absurd hloop (by simp)
    | some top =>
      rw [hp] at hloop
      obtain ⟨a, b⟩ := top
      have hloop2 : trainLoop fuel (i + 1) (merge_bytepairs toks (a, b) (256 + i))
          (dinsert ms (a, b) (256 + i)) = some (ftoks, fms) := hloop
      have hadj : (a, b) ∈ adjPairs toks := pymax_adj toks (a, b) hp
      have hcomp := mem_adjPairs_mem (a, b) toks hadj
      have hA : a < 256 + i := htoks a hcomp.1
      have hB : b < 256 + i := htoks b hcomp.2
      have hnotin : (a, b) ∉ ms.map Prod.fst := fun hmem => (hms (a, b) hmem).1 hadj
      have hms' : dinsert ms (a, b) (256 + i) = ms ++ [((a, b), 256 + i)] :=
        dinsert_of_not_mem ms (a, b) (256 + i) hnotin
      rw [hms'] at hloop2
      have htoks' : ∀ x ∈ merge_bytepairs toks (a, b) (256 + i), x < 256 + (i + 1) := by
        intro x hx
        rw [merge_bytepairs_eq_scan] at hx
        rcases mergeScan_mem (a, b) (256 + i) toks x hx with h1 | h1
        · omega
        · have := htoks x h1; omega
      have hkeys' : ∀ p ∈ (ms ++ [((a, b), 256 + i)]).map Prod.fst,
          p ∉ adjPairs (merge_bytepairs toks (a, b) (256 + i)) ∧
            p.1 < 256 + (i + 1) ∧ p.2 < 256 + (i + 1) := by
        intro p hp'
        rw [List.map_append, List.mem_append] at hp'
        rw [merge_bytepairs_eq_scan]
        rcases hp' with hp' | hp'
        · obtain ⟨hnadj, hp1, hp2⟩ := hms p hp'
          refine ⟨fun hmem => ?_, by omega, by omega⟩
          rcases mergeScan_adj (a, b) (256 + i) toks p hmem with h1 | h1 | h1
          · exact hnadj h1
          · omega
          · omega
        · simp only [List.map_cons, List.map_nil, List.mem_singleton] at hp'
          subst hp'
          refine ⟨mergeScan_no_pair a b (256 + i) (by omega) (by omega) toks, by simp; omega⟩
      have hreplay' :
          List.foldl (fun tk e => merge_bytepairs tk e.1 e.2) toks0 (ms ++ [((a, b), 256 + i)])
            = merge_bytepairs toks (a, b) (256 + i) := by
        rw [List.foldl_append, hreplay]
        rfl
      exact ih (i + 1) _ toks0 _ ftoks fms htoks' hkeys' hreplay' hloop2

/-! ## UTF-8 round trip -/

theorem decode_encChar (c : Nat) (hc : validScalarB c = true) (bs : List Nat) :
    utf8DecodeReplace (encChar c ++ bs) = c :: utf8DecodeReplace bs := by
  simp only [validScalarB, Bool.and_eq_true, Bool.or_eq_true, decide_eq_true_eq] at hc
  obtain ⟨hlt, hsur⟩ := hc
  by_cases h1 : c < 128
  · have he : encChar c = [c] := by unfold encChar; rw [if_pos h1]
    rw [he, List.cons_append, List.nil_append, utf8DecodeReplace.eq_def]
    dsimp only
    rw [if_pos h1]
  · by_cases h2 : c < 2048
    · have he : encChar c = [192 + c / 64, 128 + c % 64] := by
        unfold encChar; rw [if_neg h1, if_pos h2]
      rw [he]
      simp only [List.cons_append, List.nil_append]
      have hd1 : c / 64 < 32 := by omega
      have hm : c % 64 < 64 := Nat.mod_lt _ (by omega)
      rw [utf8DecodeReplace.eq_def]
      dsimp only
      rw [if_neg (by omega), if_neg (by omega), if_pos (by omega)]
      rw [if_pos (by omega : 128 ≤ 128 + c % 64 ∧ 128 + c % 64 < 192)]
      rw [List.cons.injEq]
      exact ⟨by omega, rfl⟩
    · by_cases h3 : c < 65536
      · have he : encChar c = [224 + c / 4096, 128 + c / 64 % 64, 128 + c % 64] := by
          unfold encChar; rw [if_neg h1, if_neg (by omega), if_pos h3]
        rw [he]
        simp only [List.cons_append, List.nil_append]
        have hd1 : c / 4096 < 16 := by omega
        have hd2 : c / 64 % 64 < 64 := Nat.mod_lt _ (by omega)
        have hm : c % 64 < 64 := Nat.mod_lt _ (by omega)
        rw [utf8DecodeReplace.eq_def]
        dsimp only
        rw [if_neg (by omega), if_neg (by omega), if_neg (by omega), if_pos (by omega)]
        have hcond : (if 224 + c / 4096 = 224 then 160 else 128) ≤ 128 + c / 64 % 64 ∧
            128 + c / 64 % 64 ≤ (if 224 + c / 4096 = 237 then 159 else 191) := by
          constructor
          · split_ifs with h224
            · have e0 : c / 4096 = 0 := by omega
              have e1 : 32 ≤ c / 64 := by omega
              have e2 : c / 64 < 64 := by omega
              have e3 : c / 64 % 64 = c / 64 := Nat.mod_eq_of_lt e2
              omega
            · omega
          · split_ifs with h237
            · have e0 : c / 4096 = 13 := by omega
              have e1 : c < 55296 := by omega
              have e2 : c / 64 < 864 := by omega
              have e3 : 832 ≤ c / 64 := by omega
              have e4 : c / 64 % 64 = c / 64 - 832 := by omega
              omega
            · omega
        rw [if_pos hcond]
        rw [if_pos (by omega : 128 ≤ 128 + c % 64 ∧ 128 + c % 64 < 192)]
        rw [List.cons.injEq]
        exact ⟨by omega, rfl⟩
      · have he : encChar c =
            [240 + c / 262144, 128 + c / 4096 % 64, 128 + c / 64 % 64, 128 + c % 64] := by
          unfold encChar; rw [if_neg h1, if_neg (by omega), if_neg h3]
        rw [he]
        simp only [List.cons_append, List.nil_append]
        have hd1 : c / 262144 < 5 := by omega
        have hd2 : c / 4096 % 64 < 64 := Nat.mod_lt _ (by omega)
        have hd3 : c / 64 % 64 < 64 := Nat.mod_lt _ (by omega)
        have hm : c % 64 < 64 := Nat.mod_lt _ (by omega)
        rw [utf8DecodeReplace.eq_def]
        dsimp only
        rw [if_neg (by omega), if_neg (by omega), if_neg (by omega), if_neg (by omega),
          if_pos (by omega)]
        have hcond : (if 240 + c / 262144 = 240 then 144 else 128) ≤ 128 + c / 4096 % 64 ∧
            128 + c / 4096 % 64 ≤ (if 240 + c / 262144 = 244 then 143 else 191) := by
          constructor
          · split_ifs with h240
            · have e0 : c / 262144 = 0 := by omega
              have e1 : 16 ≤ c / 4096 := by omega
              have e2 : c / 4096 < 64 := by omega
              have e3 : c / 4096 % 64 = c / 4096 := Nat.mod_eq_of_lt e2
              omega
            · omega
          · split_ifs with h244
            · have e0 : c / 262144 = 4 := by omega
              have e1 : 256 ≤ c / 4096 := by omega
              have e2 : c / 4096 < 272 := by omega
              have e3 : c / 4096 % 64 = c / 4096 - 256 := by omega
              omega
            · omega
        rw [if_pos hcond]
        rw [if_pos (by omega : 128 ≤ 128 + c / 64 % 64 ∧ 128 + c / 64 % 64 < 192)]
        rw [if_pos (by omega : 128 ≤ 128 + c % 64 ∧ 128 + c % 64 < 192)]
        rw [List.cons.injEq]
        exact ⟨by omega, rfl⟩

theorem utf8DecodeReplace_encode :
    ∀ (T B : List Nat), utf8EncodeList T = some B → utf8DecodeReplace B = T
  | [], B => by
    intro h
    simp only [utf8EncodeList, Option.some_inj] at h
    rw [← h]
    rfl
  | c :: cs, B => by
    intro h
    simp only [utf8EncodeList] at h
    by_cases hv : validScalarB c = true
    · rw [if_pos hv] at h
      cases hE : utf8EncodeList cs with
      | none => rw [hE] at h; exact absurd h (by simp)
      | some bs =>
        rw [hE] at h
        simp only [Option.some_inj] at h
        rw [← h, decode_encChar c hv bs, utf8DecodeReplace_encode cs bs hE]
    · rw [if_neg hv] at h
      exact absurd h (by simp)

theorem utf8EncodeList_valid :
    ∀ T : List Nat, (∀ c ∈ T, validScalarB c = true) →
      ∃ B, utf8EncodeList T = some B
  | [] => fun _ => ⟨[], rfl⟩
  | c :: cs => by
    intro h
    obtain ⟨bs, hbs⟩ := utf8EncodeList_valid cs fun x hx => h x (List.mem_cons_of_mem _ hx)
    refine ⟨encChar c ++ bs, ?_⟩
    simp only [utf8EncodeList, h c (List.mem_cons_self _ _), if_pos, hbs]

/-! ## Vocabulary lookup for well-formed tokenizers -/

theorem vocab_lookup_of_wf (t : SimpleTokenizer)
    (hm : learnedFromB 256 t.merges = true)
    (hs : canonSpecialsB (256 + t.merges.length) t.special_tokens = true)
    (hv : build_vocab_full t.merges t.special_tokens = some t.vocab) :
    ∀ x, x < 256 + t.merges.length →
      dget? t.vocab x = some (mergeFun t.merges byteFun x) := by
  have hbase : ∀ x, x < 256 → dget? baseVocab x = some (byteFun x) := by
    intro x hx
    rw [dget?_baseVocab, if_pos hx]
    simp [byteFun, hx]
  obtain ⟨v, hbuild, hlook⟩ := buildVocabMerges_inv t.merges 256 byteFun baseVocab hm hbase
  unfold build_vocab_full at hv
  rw [hbuild] at hv
  intro x hx
  rw [addSpecials_frame t.special_tokens (256 + t.merges.length) v t.vocab hs hv x hx]
  exact hlook x hx

theorem lookupAll_of_fun (v : List (Nat × List Nat)) (F : Nat → List Nat) :
    ∀ ids : List Nat, (∀ x ∈ ids, dget? v x = some (F x)) →
      lookupAll v ids = some ((ids.map F).flatten)
  | [] => fun _ => rfl
  | i :: is => by
    intro h
    have h1 := h i (List.mem_cons_self _ _)
    have h2 := lookupAll_of_fun v F is fun x hx => h x (List.mem_cons_of_mem _ hx)
    simp only [lookupAll, h1, h2, List.map_cons, List.flatten_cons]

/-- C1: for every tokenizer whose merges are as learned by training (the
`j`-th merge has id `256 + j` and refers only to smaller ids), whose
special-token ids occupy the canonical disjoint range above the merges
(the data-model invariant of the specification), and whose vocabulary is
rebuilt from those maps, and for every text of Unicode scalar values (no
lone surrogates, so no replacement is needed), `decode (encode T) = T`. -/
theorem c1_round_trip (t : SimpleTokenizer) (T : List Nat)
    (hm : learnedFromB 256 t.merges = true)
    (hs : canonSpecialsB (256 + t.merges.length) t.special_tokens = true)
    (hv : build_vocab_full t.merges t.special_tokens = some t.vocab)
    (hT : ∀ c ∈ T, validScalarB c = true) :
    ∃ toks, encode t T = some toks ∧ decode t toks = some T := by
  obtain ⟨B, hB⟩ := utf8EncodeList_valid T hT
  have hbytes := utf8EncodeList_bytes T B hB
  refine ⟨t.merges.foldl (fun tk e => merge_bytepairs tk e.1 e.2) B, ?_, ?_⟩
  · unfold encode
    rw [hB]
  · have hfold := foldScan_inv t.merges 256 byteFun B hm hbytes
    have heq : t.merges.foldl (fun tk e => merge_bytepairs tk e.1 e.2) B
        = t.merges.foldl (fun tk e => mergeScan tk e.1 e.2) B := by
      simp only [merge_bytepairs_eq_scan]
    rw [heq]
    have hlookup : ∀ x ∈ t.merges.foldl (fun tk e => mergeScan tk e.1 e.2) B,
        dget? t.vocab x = some (mergeFun t.merges byteFun x) := by
      intro x hx
      exact vocab_lookup_of_wf t hm hs hv x (hfold.1 x hx)
    unfold decode
    rw [lookupAll_of_fun t.vocab (mergeFun t.merges byteFun) _ hlookup]
    have hcontent :
        (((t.merges.foldl (fun tk e => mergeScan tk e.1 e.2) B).map
          (mergeFun t.merges byteFun)).flatten) = B := by
      rw [hfold.2]
      apply flatten_map_id
      intro x hx
      rw [mergeFun_lt t.merges 256 byteFun x hm (hbytes x hx)]
      simp [byteFun, hbytes x hx]
    rw [hcontent]
    dsimp only
    rw [utf8DecodeReplace_encode T B hB]

set_option maxRecDepth 100000 in
/-- Witness for C1: the tokenizer trained on "ab" with vocab_size 257
round-trips the text "ab". -/
theorem c1_round_trip_witness :
    ∃ toks,
      encode ((train initTokenizer [97, 98] 257).getD initTokenizer) [97, 98] = some toks ∧
        decode ((train initTokenizer [97, 98] 257).getD initTokenizer) toks
          = some [97, 98] :=
  c1_round_trip ((train initTokenizer [97, 98] 257).getD initTokenizer) [97, 98]
    (by decide) (by decide) (by decide) (by decide)

/-! ## Claim C4: the single-merge primitive -/

/-- C4: `_merge_bytepairs` replaces every non-overlapping left-to-right
occurrence of the exact adjacent pair by the replacement id: its while loop
equals the left-to-right scan `mergeScan` (written from the spec's words:
advance two positions on a match, one otherwise), the result is never
longer than the input, and in `a, b, b` only the first `(a, b)` is
consumed. -/
theorem c4_merge_single_pass (tokens : List Nat) (a b index : Nat) :
    merge_bytepairs tokens (a, b) index = mergeScan tokens (a, b) index ∧
      (merge_bytepairs tokens (a, b) index).length ≤ tokens.length ∧
      merge_bytepairs [a, b, b] (a, b) index = [index, b] := by
  refine ⟨merge_bytepairs_eq_scan tokens (a, b) index, ?_, ?_⟩
  · rw [merge_bytepairs_eq_scan]
    exact mergeScan_length (a, b) index tokens
  · rw [merge_bytepairs_eq_scan]
    simp [mergeScan]

/-! ## Claim C7: the special-token guard -/

/-- C7: `add_special_token` is total (never raises), and on a precondition
violation — no merges yet, or the string already registered — it returns
the tokenizer state completely unchanged. -/
theorem c7_special_token_guard (t : SimpleTokenizer) (s : List Nat)
    (h : t.merges = [] ∨ (dget? t.special_tokens s).isSome = true) :
    add_special_token t s = t := by
  unfold add_special_token
  rcases h with h | h
  · rw [if_pos (by rw [h]; rfl)]
  · by_cases hm : t.merges.length = 0
    · rw [if_pos hm]
    · rw [if_neg hm, if_pos h]

/-- Witness for C7: adding a special token to the untrained fresh tokenizer
is a no-op. -/
theorem c7_special_token_guard_witness :
    add_special_token initTokenizer [97] = initTokenizer :=
  c7_special_token_guard initTokenizer [97] (Or.inl rfl)

/-! ## Claim C8: decode totality and KeyError -/

theorem lookupAll_some (v : List (Nat × List Nat)) :
    ∀ ids : List Nat, (∀ i ∈ ids, (dget? v i).isSome = true) →
      ∃ bs, lookupAll v ids = some bs
  | [] => fun _ => ⟨[], rfl⟩
  | i :: is => by
    intro h
    obtain ⟨bs, hbs⟩ := lookupAll_some v is fun x hx => h x (List.mem_cons_of_mem _ hx)
    have hi := h i (List.mem_cons_self _ _)
    cases hE : dget? v i with
    | none => rw [hE] at hi; simp at hi
    | some b =>
      refine ⟨b ++ bs, ?_⟩
      simp only [lookupAll, hE, hbs]

theorem lookupAll_none (v : List (Nat × List Nat)) :
    ∀ ids : List Nat, ∀ i ∈ ids, dget? v i = none → lookupAll v ids = none
  | [], i => by simp
  | j :: is, i => by
    intro hmem hnone
    rw [List.mem_cons] at hmem
    rcases hmem with hmem | hmem
    · subst hmem
      simp only [lookupAll, hnone]
    · rw [lookupAll]
      rw [lookupAll_none v is i hmem hnone]
      cases dget? v j <;> rfl

/-- C8: when every id of the input is present in the vocabulary, `decode`
succeeds and returns the lossy (replacement-character) UTF-8 decoding of
the concatenated byte sequences — it never fails on malformed bytes; when
some id is absent from the vocabulary, the call fails (the `KeyError`),
with no silent fallback. -/
theorem c8_decode_contract (t : SimpleTokenizer) (ids : List Nat) :
    ((∀ i ∈ ids, (dget? t.vocab i).isSome = true) →
      ∃ bs, lookupAll t.vocab ids = some bs ∧ decode t ids = some (utf8DecodeReplace bs)) ∧
      ((∃ i ∈ ids, dget? t.vocab i = none) → decode t ids = none) := by
  constructor
  · intro h
    obtain ⟨bs, hbs⟩ := lookupAll_some t.vocab ids h
    refine ⟨bs, hbs, ?_⟩
    unfold decode
    rw [hbs]
  · intro h
    obtain ⟨i, hmem, hnone⟩ := h
    unfold decode
    rw [lookupAll_none t.vocab ids i hmem hnone]

set_option maxRecDepth 100000 in
/-- Witness for C8: on the fresh tokenizer, decoding `[0]` succeeds via the
vocabulary, and decoding `[999]` (an id outside the vocabulary) fails. -/
theorem c8_decode_contract_witness :
    (∃ bs, lookupAll initTokenizer.vocab [0] = some bs ∧
        decode initTokenizer [0] = some (utf8DecodeReplace bs)) ∧
      decode initTokenizer [999] = none :=
  ⟨(c8_decode_contract initTokenizer [0]).1 (by decide),
    (c8_decode_contract initTokenizer [999]).2 ⟨999, by decide, by decide⟩⟩

/-! ## Claim C6: add_special_token does not rebuild the vocabulary -/

set_option maxRecDepth 1000000 in
/-- C6 (code bug): after training one merge on "ab" and then adding the
special token "<s>", the id 257 is assigned in `special_tokens`, but
`add_special_token` never reassigns `self.vocab`, so the stale vocabulary
has no entry for 257 and `decode([257])` fails with a `KeyError` — where
the specification (§3, §4.5) says the call "triggers a vocabulary rebuild"
after which the new id resolves to the UTF-8 bytes of the token. -/
theorem c6_add_special_token_stale_vocab :
    dget? (add_special_token ((train initTokenizer [97, 98] 257).getD initTokenizer)
        [60, 115, 62]).special_tokens [60, 115, 62] = some 257 ∧
      dget? (add_special_token ((train initTokenizer [97, 98] 257).getD initTokenizer)
        [60, 115, 62]).vocab 257 = none ∧
      decode (add_special_token ((train initTokenizer [97, 98] 257).getD initTokenizer)
        [60, 115, 62]) [257] = none := by
  decide

/-! ## Claim C5: training failure conditions -/

theorem count_combinations_short (B : List Nat) (h : B.length < 2) :
    count_combinations B = [] := by
  cases B with
  | nil => rfl
  | cons x rest =>
    cases rest with
    | nil => rfl
    | cons y r2 => exact absurd h (by simp)

/-- C5 (amended): training fails — `max` raises on the empty pair dict —
whenever a merge iteration runs on a working sequence with no adjacent
pairs; in particular any corpus of fewer than 2 bytes with
`vocab_size ≥ 257` fails.  But `vocab_size < 256` does NOT fail: the loop
body never runs (`range` of a negative is empty) and training returns
normally with zero merges (see the counterexample theorem). -/
theorem c5_train_insufficient_data (t : SimpleTokenizer) (C B : List Nat) (V : Nat)
    (hB : utf8EncodeList C = some B) :
    (B.length < 2 → 257 ≤ V → train t C V = none) ∧
      (∀ v, V ≤ 256 → build_vocab_full [] t.special_tokens = some v →
        train t C V = some { merges := [], special_tokens := t.special_tokens, vocab := v }) := by
  constructor
  · intro hlen hV
    obtain ⟨f, hf⟩ : ∃ f, V - 256 = f + 1 := ⟨V - 257, by omega⟩
    have hnone : trainLoop (V - 256) 0 B [] = none := by
      rw [hf]
      simp only [trainLoop, count_combinations_short B hlen]
      rfl
    unfold train
    simp only [hB, hnone]
  · intro v hV hbv
    have h0 : V - 256 = 0 := by omega
    have hsome : trainLoop (V - 256) 0 B [] = some (B, []) := by
      rw [h0]
      rfl
    unfold train
    simp only [hB, hsome, hbv]

/-- C5 counterexample: the claim says training fails whenever
`vocab_size < 256`; the code has no such check — `range(255 - 256)` is
empty, so training on the empty corpus with vocab_size 255 returns
normally with zero merges instead of failing. -/
theorem c5_counterexample :
    train initTokenizer [] 255
      = some { merges := [], special_tokens := [], vocab := baseVocab } := rfl

/-- Witness for C5: the empty corpus with vocab_size 257 fails
(insufficient data), and vocab_size 256 returns normally. -/
theorem c5_train_insufficient_data_witness :
    train initTokenizer [] 257 = none ∧
      train initTokenizer [] 256
        = some { merges := [], special_tokens := [], vocab := baseVocab } :=
  ⟨(c5_train_insufficient_data initTokenizer [] [] 257 rfl).1 (by decide) (by decide),
    (c5_train_insufficient_data initTokenizer [] [] 256 rfl).2 baseVocab (by decide) rfl⟩

/-! ## Claim C3: encode replays training -/

/-- C3: `encode` applies every recorded merge rule in learned order, one
full single-merge pass per rule, never recomputing pair counts (it is a
fold of `_merge_bytepairs` over the merges map and nothing else); hence on
any corpus and vocab_size for which training succeeds, encoding the corpus
with the resulting tokenizer yields exactly the final working token
sequence of the training loop. -/
theorem c3_encode_replays_training (t0 t : SimpleTokenizer) (C B ftoks : List Nat)
    (fms : List ((Nat × Nat) × Nat)) (V : Nat)
    (hB : utf8EncodeList C = some B)
    (hloop : trainLoop (V - 256) 0 B [] = some (ftoks, fms))
    (ht : train t0 C V = some t) :
    encode t C = some ftoks := by
  unfold train at ht
  simp only [hB, hloop] at ht
  cases hbv : build_vocab_full fms t0.special_tokens with
  | none =>
    rw [hbv] at ht
    exact absurd ht (by simp)
  | some v =>
    rw [hbv] at ht
    have ht2 :
        some { merges := fms, special_tokens := t0.special_tokens, vocab := v }
          = some t := ht
    simp only [Option.some_inj] at ht2
    have hmerges : t.merges = fms := by rw [← ht2]
    unfold encode
    simp only [hB]
    rw [hmerges]
    have hrep := trainLoop_replay (V - 256) 0 B B [] ftoks fms
      (fun x hx => by have := utf8EncodeList_bytes C B hB x hx; omega)
      (by simp) rfl hloop
    rw [hrep]

set_option maxRecDepth 1000000 in
/-- Witness for C3: training on "ab" with vocab_size 257 ends with working
sequence `[256]`, and encoding "ab" with the trained tokenizer returns
exactly `[256]`. -/
theorem c3_encode_replays_training_witness :
    encode ((train initTokenizer [97, 98] 257).getD initTokenizer) [97, 98] = some [256] :=
  c3_encode_replays_training initTokenizer
    ((train initTokenizer [97, 98] 257).getD initTokenizer) [97, 98] [97, 98] [256]
    [((97, 98), 256)] 257 rfl (by decide) (by decide)

/-! ## Persistence lemmas -/

theorem splitSep_no_sep (sep : Nat) : ∀ l : List Nat, sep ∉ l → splitSep sep l = [l]
  | [] => fun _ => rfl
  | c :: rest => by
    intro h
    simp only [List.mem_cons] at h
    push_neg at h
    have hcs : ¬c = sep := fun hh => h.1 hh.symm
    simp only [splitSep, hcs, if_false]
    rw [splitSep_no_sep sep rest h.2]

theorem parsePairLine_render (a b : Nat) :
    parsePairLine (natDec a ++ 32 :: natDec b) = some (a, b) := by
  have h32a : (32 : Nat) ∉ natDec a := fun h => by have := natDec_digits a 32 h; omega
  have h32b : (32 : Nat) ∉ natDec b := fun h => by have := natDec_digits b 32 h; omega
  unfold parsePairLine
  rw [splitSep_sep_cons 32 (natDec a) (natDec b) h32a]
  rw [splitSep_no_sep 32 (natDec b) h32b]
  simp only [pyint?_natDec a, pyint?_natDec b]

theorem renderPair_no_nl (k : Nat × Nat) : (10 : Nat) ∉ natDec k.1 ++ 32 :: natDec k.2 := by
  intro h
  rw [List.mem_append, List.mem_cons] at h
  rcases h with h | h | h
  · have := natDec_digits k.1 10 h; omega
  · omega
  · have := natDec_digits k.2 10 h; omega

theorem loadMergesLoop_saved :
    ∀ (ks : List (Nat × Nat)) (i : Nat) (acc : List ((Nat × Nat) × Nat)),
      (∀ k ∈ ks, k ∉ acc.map Prod.fst) → ks.Nodup →
      loadMergesLoop (ks.map fun k => natDec k.1 ++ 32 :: natDec k.2) i acc
        = (acc ++ canonK ks i, true)
  | [], i, acc => by
    intro _ _
    simp [loadMergesLoop, canonK]
  | k :: ks, i, acc => by
    intro hdisj hnodup
    obtain ⟨k1, k2⟩ := k
    rw [List.nodup_cons] at hnodup
    simp only [List.map_cons, loadMergesLoop, parsePairLine_render]
    rw [dinsert_of_not_mem acc (k1, k2) (i + 256) (hdisj (k1, k2) (List.mem_cons_self _ _))]
    have hd : ∀ k' ∈ ks, k' ∉ (acc ++ [((k1, k2), i + 256)]).map Prod.fst := by
      intro k' hk'
      rw [List.map_append, List.mem_append]
      push_neg
      refine ⟨hdisj k' (List.mem_cons_of_mem _ hk'), ?_⟩
      simp only [List.map_cons, List.map_nil, List.mem_singleton]
      intro he
      exact hnodup.1 (he ▸ hk')
    rw [loadMergesLoop_saved ks (i + 1) (acc ++ [((k1, k2), i + 256)]) hd hnodup.2]
    simp [canonK, List.append_assoc]

theorem loadSpecialsLoop_saved :
    ∀ (ss : List (List Nat)) (i mlen : Nat) (acc : List (List Nat × Nat)),
      (∀ s ∈ ss, s ∉ acc.map Prod.fst) → ss.Nodup →
      loadSpecialsLoop ss i mlen acc = acc ++ canonS ss i mlen
  | [], i, mlen, acc => by
    intro _ _
    simp [loadSpecialsLoop, canonS]
  | s :: ss, i, mlen, acc => by
    intro hdisj hnodup
    rw [List.nodup_cons] at hnodup
    simp only [loadSpecialsLoop]
    rw [dinsert_of_not_mem acc s (i + 256 + mlen) (hdisj s (List.mem_cons_self _ _))]
    have hd : ∀ s' ∈ ss, s' ∉ (acc ++ [(s, i + 256 + mlen)]).map Prod.fst := by
      intro s' hs'
      rw [List.map_append, List.mem_append]
      push_neg
      refine ⟨hdisj s' (List.mem_cons_of_mem _ hs'), ?_⟩
      simp only [List.map_cons, List.map_nil, List.mem_singleton]
      intro he
      exact hnodup.1 (he ▸ hs')
    rw [loadSpecialsLoop_saved ss (i + 1) mlen (acc ++ [(s, i + 256 + mlen)]) hd hnodup.2]
    simp [canonS, List.append_assoc]

theorem canonK_eq :
    ∀ (ms : List ((Nat × Nat) × Nat)) (i : Nat),
      canonValsB (i + 256) ms = true → canonK (ms.map Prod.fst) i = ms
  | [], _ => fun _ => rfl
  | (p, idx) :: rest, i => by
    intro h
    simp only [canonValsB, Bool.and_eq_true, decide_eq_true_eq] at h
    obtain ⟨hidx, hrest⟩ := h
    simp only [List.map_cons, canonK]
    have h1 : i + 256 + 1 = i + 1 + 256 := by omega
    rw [h1] at hrest
    rw [canonK_eq rest (i + 1) hrest, hidx]

theorem canonS_eq :
    ∀ (sp : List (List Nat × Nat)) (i mlen : Nat),
      canonSpecialsB (i + 256 + mlen) sp = true → canonS (sp.map Prod.fst) i mlen = sp
  | [], _, _ => fun _ => rfl
  | (s, idx) :: rest, i, mlen => by
    intro h
    simp only [canonSpecialsB, Bool.and_eq_true, decide_eq_true_eq] at h
    obtain ⟨hidx, hrest⟩ := h
    simp only [List.map_cons, canonS]
    have h1 : i + 256 + mlen + 1 = i + 1 + 256 + mlen := by omega
    rw [h1] at hrest
    rw [canonS_eq rest (i + 1) mlen hrest, hidx]

/-- C2 (amended): `save` then `load` into a fresh tokenizer reproduces the
merges and special_tokens maps exactly — keys in order, ids re-derived as
`256 + line` and `256 + merge_count + line` — and hence `encode`/`decode`
agree with the original on every input, PROVIDED the original ids are
already canonical (as training and `add_special_token` produce them), the
keys are the distinct keys of a Python dict, no special token contains a
newline, and the stored vocabulary is the rebuilt one.  For non-canonical
ids the claim fails: `load` re-derives ids purely from line position (see
the counterexample theorem). -/
theorem c2_save_load_round_trip (t : SimpleTokenizer)
    (hmv : canonValsB 256 t.merges = true)
    (hsv : canonSpecialsB (256 + t.merges.length) t.special_tokens = true)
    (hmn : (t.merges.map Prod.fst).Nodup)
    (hsn : (t.special_tokens.map Prod.fst).Nodup)
    (hnl : ∀ s ∈ t.special_tokens.map Prod.fst, (10 : Nat) ∉ s)
    (hv : build_vocab_full t.merges t.special_tokens = some t.vocab) :
    load initTokenizer (some (save t)) = (t, true) ∧
      (∀ input, encode (load initTokenizer (some (save t))).1 input = encode t input) ∧
      (∀ ids, decode (load initTokenizer (some (save t))).1 ids = decode t ids) := by
  have hmlines :
      (splitSep 10 ((t.merges.map fun e =>
          natDec e.1.1 ++ 32 :: natDec e.1.2 ++ [10]).flatten)).dropLast
        = (t.merges.map Prod.fst).map fun k => natDec k.1 ++ 32 :: natDec k.2 := by
    have h1 : (t.merges.map fun e => natDec e.1.1 ++ 32 :: natDec e.1.2 ++ [10])
        = (((t.merges.map Prod.fst).map fun k => natDec k.1 ++ 32 :: natDec k.2).map
            fun l => l ++ [10]) := by
      rw [List.map_map, List.map_map]
      apply List.map_congr_left
      intro e _
      simp [List.append_assoc]
    rw [h1, splitSep_flatten_dropLast]
    intro l hl
    rw [List.mem_map] at hl
    obtain ⟨k, _, hk⟩ := hl
    rw [← hk]
    exact renderPair_no_nl k
  have hKK : loadMergesLoop ((t.merges.map Prod.fst).map fun k =>
      natDec k.1 ++ 32 :: natDec k.2) 0 [] = (t.merges, true) := by
    rw [loadMergesLoop_saved (t.merges.map Prod.fst) 0 [] (by simp) hmn]
    rw [List.nil_append]
    rw [canonK_eq t.merges 0 (by rw [Nat.zero_add]; exact hmv)]
  have hslines :
      (splitSep 10 ((t.special_tokens.map fun e => e.1 ++ [10]).flatten)).dropLast
        = t.special_tokens.map Prod.fst := by
    have h1 : (t.special_tokens.map fun e => e.1 ++ [10])
        = ((t.special_tokens.map Prod.fst).map fun l => l ++ [10]) := by
      rw [List.map_map]
      rfl
    rw [h1, splitSep_flatten_dropLast _ _ hnl]
  have hSS : loadSpecialsLoop (t.special_tokens.map Prod.fst) 0 t.merges.length []
      = t.special_tokens := by
    rw [loadSpecialsLoop_saved (t.special_tokens.map Prod.fst) 0 t.merges.length []
      (by simp) hsn]
    rw [List.nil_append]
    exact canonS_eq t.special_tokens 0 t.merges.length
      (by rw [Nat.zero_add]; exact hsv)
  have hmain : load initTokenizer (some (save t)) = (t, true) := by
    unfold load save initTokenizer
    simp only [hmlines, hKK, hslines, hSS, hv]
  refine ⟨hmain, fun input => by rw [hmain], fun ids => by rw [hmain]⟩

set_option maxRecDepth 1000000 in
/-- C2 counterexample: a tokenizer whose only merge `(0, 1)` carries the
non-canonical id 999 does not round trip as the claim states: `load`
succeeds but re-derives the id as 256, so the merges map differs from the
original and `encode` disagrees on the input `"\x00\x01"`. -/
theorem c2_counterexample :
    ((load initTokenizer (some (save
          { merges := [((0, 1), 999)], special_tokens := [], vocab := baseVocab }))).2
        = true ∧
      (load initTokenizer (some (save
          { merges := [((0, 1), 999)], special_tokens := [], vocab := baseVocab }))).1.merges
        = [((0, 1), 256)]) ∧
      encode (load initTokenizer (some (save
          { merges := [((0, 1), 999)], special_tokens := [], vocab := baseVocab }))).1 [0, 1]
        ≠ encode { merges := [((0, 1), 999)], special_tokens := [], vocab := baseVocab }
            [0, 1] := by
  decide

set_option maxRecDepth 1000000 in
/-- Witness for C2: a canonical tokenizer (one merge with id 256, one
special token "c" with id 257, rebuilt vocabulary) survives save-then-load
into a fresh tokenizer unchanged. -/
theorem c2_save_load_round_trip_witness :
    load initTokenizer (some (save
        (SimpleTokenizer.mk [((97, 98), 256)] [([99], 257)]
          ((build_vocab_full [((97, 98), 256)] [([99], 257)]).getD []))))
      = (SimpleTokenizer.mk [((97, 98), 256)] [([99], 257)]
          ((build_vocab_full [((97, 98), 256)] [([99], 257)]).getD []), true) :=
  (c2_save_load_round_trip
    (SimpleTokenizer.mk [((97, 98), 256)] [([99], 257)]
      ((build_vocab_full [((97, 98), 256)] [([99], 257)]).getD []))
    (by decide) (by decide) (by decide) (by decide) (by decide) (by decide)).1

/-- C9 (amended): `load` signals failure on a missing directory, a missing
file, a malformed line, or a vocabulary-rebuild error; when the directory
or the merges file is missing the state is untouched, and the stored
vocabulary is never modified by any failing call — but the merges and
special-token maps mutated before the failure point keep their partial
mutations (see the counterexample theorem), since the code loads directly
into `self.merges`/`self.special_tokens` rather than a temporary. -/
theorem c9_load_failure_paths (t : SimpleTokenizer) :
    load t none = (t, false) ∧
      (∀ d : TokDir, d.merges_file = none → load t (some d) = (t, false)) ∧
      (∀ dir t', load t dir = (t', false) → t'.vocab = t.vocab) := by
  refine ⟨rfl, ?_, ?_⟩
  · intro d hd
    obtain ⟨mf, sf⟩ := d
    simp only at hd
    subst hd
    rfl
  · intro dir t' h
    unfold load at h
    split at h
    · injection h with h1 _
      rw [← h1]
    · split at h
      · injection h with h1 _
        rw [← h1]
      · split at h
        · injection h with h1 _
          rw [← h1]
        · split at h
          · injection h with h1 _
            rw [← h1]
          · split at h
            · injection h with h1 _
              rw [← h1]
            · injection h with _ h2
              exact absurd h2 (by simp)

/-- C9 counterexample: loading from a directory whose merges file is
`"0 1\n"` but whose special file is missing fails, yet the failed call
leaves the merge `(0, 1) ↦ 256` visibly inserted in the previously empty
merges map — partial mutation is visible after a failed load. -/
theorem c9_counterexample :
    (load initTokenizer (some (TokDir.mk (some [48, 32, 49, 10]) none))).2 = false ∧
      (load initTokenizer (some (TokDir.mk (some [48, 32, 49, 10]) none))).1.merges
        ≠ initTokenizer.merges := by
  decide

/-- Witness for C9: a missing directory and a missing merges file both fail
and leave the fresh tokenizer unchanged. -/
theorem c9_load_failure_paths_witness :
    load initTokenizer none = (initTokenizer, false) ∧
      load initTokenizer (some (TokDir.mk none none)) = (initTokenizer, false) :=
  ⟨(c9_load_failure_paths initTokenizer).1,
    (c9_load_failure_paths initTokenizer).2.1 (TokDir.mk none none) rfl⟩

/-! ## Claim C10: load never removes existing entries -/

theorem loadMergesLoop_mono :
    ∀ (lines : List (List Nat)) (i : Nat) (ms ms' : List ((Nat × Nat) × Nat)) (flag : Bool),
      loadMergesLoop lines i ms = (ms', flag) →
      ∀ p v, dget? ms p = some v →
        (∃ w, dget? ms' p = some w) ∧
          (dget? ms' p = some v ∨ p ∈ lines.filterMap parsePairLine)
  | [], i, ms, ms', flag => by
    intro h p v hp
    simp only [loadMergesLoop, Prod.mk.injEq] at h
    rw [← h.1]
    exact ⟨⟨v, hp⟩, Or.inl hp⟩
  | row :: rest, i, ms, ms', flag => by
    intro h p v hp
    cases hP : parsePairLine row with
    | none =>
      simp only [loadMergesLoop, hP, Prod.mk.injEq] at h
      rw [← h.1]
      exact ⟨⟨v, hp⟩, Or.inl hp⟩
    | some q =>
      obtain ⟨a, b⟩ := q
      simp only [loadMergesLoop, hP] at h
      by_cases hpe : p = (a, b)
      · have hins : dget? (dinsert ms (a, b) (i + 256)) p = some (i + 256) := by
          rw [hpe]
          exact dget?_dinsert_self ms (a, b) (i + 256)
        obtain ⟨hex, _⟩ := loadMergesLoop_mono rest (i + 1) _ ms' flag h p (i + 256) hins
        refine ⟨hex, Or.inr ?_⟩
        rw [hpe]
        simp [List.filterMap_cons, hP]
      · have hins : dget? (dinsert ms (a, b) (i + 256)) p = some v := by
          rw [dget?_dinsert_ne ms (a, b) p (i + 256) hpe]
          exact hp
        obtain ⟨hex, hdisj⟩ := loadMergesLoop_mono rest (i + 1) _ ms' flag h p v hins
        refine ⟨hex, ?_⟩
        rcases hdisj with hd | hd
        · exact Or.inl hd
        · exact Or.inr (by simp [List.filterMap_cons, hP, hd])

theorem loadSpecialsLoop_mono :
    ∀ (ss : List (List Nat)) (i mlen : Nat) (sp : List (List Nat × Nat))
      (s : List Nat) (v : Nat),
      dget? sp s = some v → ∃ w, dget? (loadSpecialsLoop ss i mlen sp) s = some w
  | [], _, _, sp, s, v => fun h => ⟨v, h⟩
  | s0 :: ss, i, mlen, sp, s, v => by
    intro h
    simp only [loadSpecialsLoop]
    by_cases he : s = s0
    · subst he
      exact loadSpecialsLoop_mono ss (i + 1) mlen _ s _ (dget?_dinsert_self sp s _)
    · exact loadSpecialsLoop_mono ss (i + 1) mlen _ s v
        (by rw [dget?_dinsert_ne sp s0 s _ he]; exact h)

/-- C10: a successful `load` only adds on top of the existing maps: every
pre-existing merge key and special-token key is still present afterwards,
and a pre-existing merge pair keeps its exact entry unless the same pair
key appears on some line of the loaded merges file. -/
theorem c10_load_preserves_entries (t : SimpleTokenizer) (dir : Option TokDir)
    (t' : SimpleTokenizer) (h : load t dir = (t', true)) :
    (∀ p v, dget? t.merges p = some v → ∃ w, dget? t'.merges p = some w) ∧
      (∀ s v, dget? t.special_tokens s = some v → ∃ w, dget? t'.special_tokens s = some w) ∧
      (∀ d mtext, dir = some d → d.merges_file = some mtext →
        ∀ p v, dget? t.merges p = some v →
          p ∉ ((splitSep 10 mtext).dropLast).filterMap parsePairLine →
          dget? t'.merges p = some v) := by
  unfold load at h
  split at h
  · injection h with _ h2
    exact absurd h2 (by simp)
  · rename_i d
    split at h
    · injection h with _ h2
      exact absurd h2 (by simp)
    · rename_i mtext hmf
      split at h
      · injection h with _ h2
        exact absurd h2 (by simp)
      · rename_i ms hloop
        split at h
        · injection h with _ h2
          exact absurd h2 (by simp)
        · rename_i stext hsf
          split at h
          · injection h with _ h2
            exact absurd h2 (by simp)
          · rename_i v hbv
            injection h with h1 _
            refine ⟨?_, ?_, ?_⟩
            · intro p w hp
              obtain ⟨w', hw'⟩ :=
                (loadMergesLoop_mono _ 0 t.merges ms true hloop p w hp).1
              exact ⟨w', by rw [← h1]; exact hw'⟩
            · intro s w hs
              obtain ⟨w', hw'⟩ := loadSpecialsLoop_mono
                ((splitSep 10 stext).dropLast) 0 ms.length t.special_tokens s w hs
              exact ⟨w', by rw [← h1]; exact hw'⟩
            · intro d0 mtext0 hdir hmf0 p w hp hnot
              cases hdir
              rw [hmf] at hmf0
              injection hmf0 with hmt
              subst hmt
              have := (loadMergesLoop_mono _ 0 t.merges ms true hloop p w hp).2
              rcases this with hd2 | hd2
              · rw [← h1]
                exact hd2
              · exact absurd hd2 hnot

set_option maxRecDepth 1000000 in
/-- Witness for C10: loading the file "0 1\n" (plus an empty special file)
into a tokenizer that already holds the merge `(5, 6) ↦ 300` succeeds and
keeps that pre-existing entry with its exact value. -/
theorem c10_load_preserves_entries_witness :
    (∃ w, dget? (load (SimpleTokenizer.mk [((5, 6), 300)] [] baseVocab)
        (some (TokDir.mk (some [48, 32, 49, 10]) (some [])))).1.merges (5, 6) = some w) ∧
      dget? (load (SimpleTokenizer.mk [((5, 6), 300)] [] baseVocab)
        (some (TokDir.mk (some [48, 32, 49, 10]) (some [])))).1.merges (5, 6) = some 300 :=
  ⟨(c10_load_preserves_entries (SimpleTokenizer.mk [((5, 6), 300)] [] baseVocab)
      (some (TokDir.mk (some [48, 32, 49, 10]) (some [])))
      (load (SimpleTokenizer.mk [((5, 6), 300)] [] baseVocab)
        (some (TokDir.mk (some [48, 32, 49, 10]) (some [])))).1
      (by decide)).1 (5, 6) 300 (by decide),
    (c10_load_preserves_entries (SimpleTokenizer.mk [((5, 6), 300)] [] baseVocab)
      (some (TokDir.mk (some [48, 32, 49, 10]) (some [])))
      (load (SimpleTokenizer.mk [((5, 6), 300)] [] baseVocab)
        (some (TokDir.mk (some [48, 32, 49, 10]) (some [])))).1
      (by decide)).2.2 (TokDir.mk (some [48, 32, 49, 10]) (some [])) [48, 32, 49, 10]
      rfl rfl (5, 6) 300 (by decide) (by decide)⟩
